import Mathlib

/-!
Verification development for the Broken-Link-Finder repository.

The JavaScript sources under `src/` are shallowly embedded below:
* `ApifyUtils` models `src/apify-utils.js` (URL canonicalization), including a
  model of the WHATWG `URL` constructor restricted to the behaviour the
  repository relies on (http/https URLs; percent-decoding of query
  parameters).  The model does not perform percent-ENcoding of path
  characters, does not resolve `.`/`..` path segments and does not treat
  `\` as a path separator; none of the concrete inputs used in the
  theorems exercise those behaviours.
* `Tools` models `src/tools.js` (result resolver, classification,
  domain scoping).
* `PageHandler` models `src/page-handler.js` (skip/archive URL patterns and
  link extraction/enqueueing) together with the crawl loop of
  `src/main.js`.

JavaScript numbers/strings are modelled with `Nat`/`String`; nullable
values with `Option`; JS truthiness of nullable strings/numbers is made
explicit (`strTruthy`, `natTruthy`).
-/

namespace BLF

/-! ### JavaScript string primitives -/

/-- Whitespace recognised by `String.prototype.trim` (ASCII subset). -/
def jsWhitespace (c : Char) : Bool :=
  c == ' ' || c == '\t' || c == '\n' || c == '\r' || c == '\x0b' || c == '\x0c'

/-- `String.prototype.trim` on character lists. -/
def trimChars (cs : List Char) : List Char :=
  ((cs.dropWhile jsWhitespace).reverse.dropWhile jsWhitespace).reverse

/-- The WHATWG URL constructor removes all ASCII tab/newline characters. -/
def stripTabNewline (cs : List Char) : List Char :=
  cs.filter (fun c => !(c == '\t' || c == '\n' || c == '\r'))

/-- `String.prototype.toLowerCase`, ASCII subset. -/
def lowerChar (c : Char) : Char :=
  if 'A' ≤ c ∧ c ≤ 'Z' then Char.ofNat (c.toNat + 32) else c

def lowerList (cs : List Char) : List Char := cs.map lowerChar

def lowerStr (s : String) : String := String.mk (lowerList s.data)

/-- First index of a character (JS `String.prototype.indexOf`, hit case). -/
def indexOfChar (target : Char) : List Char → Option Nat
  | [] => none
  | c :: rest =>
    if c == target then some 0 else (indexOfChar target rest).map (· + 1)

/-- Remove the first occurrence of a character (JS `replace(c, '')`). -/
def removeFirstChar (target : Char) : List Char → List Char
  | [] => []
  | c :: rest => if c == target then rest else c :: removeFirstChar target rest

/-- Split on a separator character, keeping empty pieces (JS `split`). -/
def splitOnChar (sep : Char) : List Char → List (List Char)
  | [] => [[]]
  | c :: rest =>
    if c == sep then [] :: splitOnChar sep rest
    else
      match splitOnChar sep rest with
      | [] => [[c]]
      | h :: t => (c :: h) :: t

/-- Substring containment (JS `String.prototype.includes`). -/
def containsList (needle : List Char) : List Char → Bool
  | [] => needle.isEmpty
  | c :: rest => needle.isPrefixOf (c :: rest) || containsList needle rest

def containsStr (hay needle : String) : Bool := containsList needle.data hay.data

/-- JS truthiness of a nullable string (`null` and `''` are falsy). -/
def strTruthy : Option String → Bool
  | none => false
  | some s => !s.isEmpty

/-- JS truthiness of a nullable number (`null` and `0` are falsy). -/
def natTruthy : Option Nat → Bool
  | none => false
  | some n => n != 0

/-- Code-point lexicographic order on character lists (the order JS
`Array.prototype.sort` uses for strings). -/
def listLe : List Char → List Char → Bool
  | [], _ => true
  | _ :: _, [] => false
  | a :: as, b :: bs =>
    if a.toNat < b.toNat then true
    else if b.toNat < a.toNat then false
    else listLe as bs

def strLe (a b : String) : Bool := listLe a.data b.data

/-! ### Model of the WHATWG `URL` constructor (http/https subset) -/

/-- The components of a parsed URL that the repository reads
(`protocol` includes the trailing `:`; `search`/`hash` include their
leading `?`/`#` when non-empty; the port is parsed and discarded since
no source file reads it). -/
structure JSURL where
  protocol : String
  hostname : String
  pathname : String
  search : String
  hash : String
deriving Repr, DecidableEq

def isAsciiAlpha (c : Char) : Bool :=
  ('a' ≤ c && c ≤ 'z') || ('A' ≤ c && c ≤ 'Z')

def isSchemeChar (c : Char) : Bool :=
  isAsciiAlpha c || c.isDigit || c == '+' || c == '-' || c == '.'

/-- Parse `scheme:`; returns the lowercased scheme and the remainder. -/
def parseScheme (cs : List Char) : Option (List Char × List Char) :=
  match cs with
  | [] => none
  | c :: rest =>
    if isAsciiAlpha c then
      let body := rest.takeWhile isSchemeChar
      match rest.dropWhile isSchemeChar with
      | ':' :: tail => some (lowerList (c :: body), tail)
      | _ => none
    else none

def authorityDelim (c : Char) : Bool :=
  c == '/' || c == '\\' || c == '?' || c == '#'

def pathDelim (c : Char) : Bool := c == '?' || c == '#'

/-- Core URL parse on sanitized characters.  For http/https the authority
is parsed as WHATWG does (ignore extra slashes, strip userinfo and port,
lowercase the host, fail on an empty host); for any other scheme only the
protocol is meaningful downstream (the canonicalizer rejects it before
reading other fields), so the remainder is stored as an opaque path. -/
def jsParseCore (cs : List Char) : Option JSURL :=
  match parseScheme cs with
  | none => none
  | some (scheme, rest) =>
    let protocol := String.mk scheme ++ ":"
    if scheme = "http".data ∨ scheme = "https".data then
      let rest := rest.dropWhile (fun c => c == '/' || c == '\\')
      let auth := rest.takeWhile (fun c => !authorityDelim c)
      let rest2 := rest.dropWhile (fun c => !authorityDelim c)
      let hostRaw := (auth.reverse.takeWhile (· != '@')).reverse
      let host := hostRaw.takeWhile (· != ':')
      if host.isEmpty then none
      else
        let path := rest2.takeWhile (fun c => !pathDelim c)
        let rest3 := rest2.dropWhile (fun c => !pathDelim c)
        let pathname := if path.isEmpty then ['/'] else path
        let search :=
          match rest3 with
          | '?' :: t =>
            let q := t.takeWhile (· != '#')
            if q.isEmpty then [] else '?' :: q
          | _ => []
        let afterQ :=
          match rest3 with
          | '?' :: t => t.dropWhile (· != '#')
          | other => other
        let hash :=
          match afterQ with
          | '#' :: t => if t.isEmpty then [] else '#' :: t
          | _ => []
        some { protocol := protocol,
               hostname := String.mk (lowerList host),
               pathname := String.mk pathname,
               search := String.mk search,
               hash := String.mk hash }
    else
      some { protocol := protocol, hostname := "",
             pathname := String.mk rest, search := "", hash := "" }

/-- `new URL(s)` (absolute form): trim, strip tab/newline, parse. -/
def jsParseURL (s : String) : Option JSURL :=
  jsParseCore (stripTabNewline (trimChars s.data))

/-! ### Percent-decoding of query parameters (`URLSearchParams`) -/

def hexVal (c : Char) : Option Nat :=
  if '0' ≤ c ∧ c ≤ '9' then some (c.toNat - '0'.toNat)
  else if 'a' ≤ c ∧ c ≤ 'f' then some (c.toNat - 'a'.toNat + 10)
  else if 'A' ≤ c ∧ c ≤ 'F' then some (c.toNat - 'A'.toNat + 10)
  else none

/-- `application/x-www-form-urlencoded` decoding of one token
(`+` becomes space, `%XX` is decoded, malformed escapes pass through). -/
def decodeQueryChars : List Char → List Char
  | [] => []
  | '+' :: rest => ' ' :: decodeQueryChars rest
  | '%' :: a :: b :: rest =>
    match hexVal a, hexVal b with
    | some ha, some hb => Char.ofNat (16 * ha + hb) :: decodeQueryChars rest
    | _, _ => '%' :: decodeQueryChars (a :: b :: rest)
  | c :: rest => c :: decodeQueryChars rest

/-- The (key, value) pairs yielded by `urlObj.searchParams.forEach`,
in query order: split on `&`, skip empty pieces, split each piece at the
first `=`, percent-decode both sides. -/
def parseQueryPairs (q : List Char) : List (String × String) :=
  ((splitOnChar '&' q).filter (· ≠ [])).map fun piece =>
    (String.mk (decodeQueryChars (piece.takeWhile (· != '='))),
     String.mk (decodeQueryChars ((piece.dropWhile (· != '=')).drop 1)))

/-! ### `src/apify-utils.js` -/

namespace ApifyUtils

/-- The tracking-parameter deny-list (`ignoredParams` in `normalizeUrl`). -/
def ignoredParams : List String :=
  ["utm_source", "utm_medium", "utm_campaign", "utm_term", "utm_content",
   "fbclid", "gclid", "msclkid", "ref", "source", "mc_cid", "mc_eid",
   "_ga", "_gl", "share", "replytocom"]

/-- `path.replace(/\/+$/, '')`: remove all trailing slashes. -/
def stripTrailingSlashes (cs : List Char) : List Char :=
  (cs.reverse.dropWhile (· == '/')).reverse

/-- `path.replace(/\/+/g, '/')`: collapse runs of slashes to one. -/
def collapseSlashes : List Char → List Char
  | [] => []
  | c :: rest =>
    match rest with
    | [] => [c]
    | d :: _ =>
      if c == '/' && d == '/' then collapseSlashes rest
      else c :: collapseSlashes rest

/-- Insert into a `strLe`-sorted list of strings (helper for `params.sort()`). -/
def insertSorted (a : String) : List String → List String
  | [] => [a]
  | b :: rest => if strLe a b then a :: b :: rest else b :: insertSorted a rest

/-- `params.sort()`: JS default sort of strings (sorts by code-unit order). -/
def sortStrings (l : List String) : List String := l.foldr insertSorted []

/-- `hostname.replace(/^www\./, '')`. -/
def stripWww (cs : List Char) : List Char :=
  if "www.".data.isPrefixOf cs then cs.drop 4 else cs

/-- The sorted `key=value` strings of the kept query parameters
(filter by the deny-list on the lowercased key, then `params.sort()`,
JS default string order). -/
def canonParams (search : String) : List String :=
  let q := match search.data with
    | '?' :: t => t
    | other => other
  let pairs := parseQueryPairs q
  let kept := pairs.filter (fun kv => !(ignoredParams.contains (lowerStr kv.1)))
  let params := kept.map (fun kv => kv.1 ++ "=" ++ kv.2)
  sortStrings params

/-- `normalizeUrl` of `src/apify-utils.js`. -/
def normalizeUrl (url : String) (keepFragment : Bool := false) : Option String :=
  if url.isEmpty then none
  else
    match jsParseURL url with
    | none => none
    | some u =>
      let protocol := lowerStr (String.mk (removeFirstChar ':' u.protocol.data))
      if !(protocol == "http" || protocol == "https") then none
      else
        let hostname := String.mk (stripWww (lowerList u.hostname.data))
        let path := String.mk (collapseSlashes (stripTrailingSlashes u.pathname.data))
        let params := canonParams u.search
        let queryString := if params.isEmpty then "" else "?" ++ String.intercalate "&" params
        let fragmentString := if keepFragment && !u.hash.isEmpty then u.hash else ""
        some (protocol ++ "://" ++ hostname ++ path ++ queryString ++ fragmentString)

/-- `getUrlKey` of `src/apify-utils.js`. -/
def getUrlKey (url : String) : String :=
  match normalizeUrl url false with
  | none => url
  | some normalized => normalized

end ApifyUtils

/-! ### `src/tools.js` -/

namespace Tools

/-- Modelled from the spec: `STATUS_CODES.OK` from the repository's
`consts.js`, which is not present under `src/`.  Spec §4.5 buckets
statuses as 2xx OK, so the lower error bound is HTTP 200. -/
def STATUS_CODES_OK : Nat := 200

/-- Modelled from the spec: `STATUS_CODES.REDIRECTION` from the missing
`consts.js`; spec §4.5 treats 3xx as the redirection range. -/
def STATUS_CODES_REDIRECTION : Nat := 300

/-- Modelled from the spec: `STATUS_CODES.NOT_MODIFIED` from the missing
`consts.js`; the spec's "non-2xx-non-not-modified" refers to HTTP 304. -/
def STATUS_CODES_NOT_MODIFIED : Nat := 304

/-- `normalizeUrl` of `src/tools.js`: fall back to the raw URL (with the
fragment removed when `#` occurs at a positive index) when the
canonicalizer rejects it. -/
def normalizeUrl (url : String) : String :=
  match ApifyUtils.normalizeUrl url with
  | some nurl => nurl
  | none =>
    match indexOfChar '#' url.data with
    | some i => if 0 < i then String.mk (url.data.take i) else url
    | none => url

/-- `getStatus` of `src/tools.js`. -/
def getStatus (httpStatus : Option Nat) (errorMessage : Option String) : String :=
  if strTruthy errorMessage then
    let e := errorMessage.getD ""
    if containsStr (lowerStr e) "timeout" then "Timeout"
    else if containsStr e "ENOTFOUND" || containsStr e "ECONNREFUSED" then "Not Found"
    else if containsStr e "ECONNRESET" then "Connection Reset"
    else "Error"
  else if !natTruthy httpStatus then "Unknown"
  else
    let s := httpStatus.getD 0
    if 200 ≤ s ∧ s < 300 then "OK"
    else if 300 ≤ s ∧ s < 400 then "Redirect"
    else if s = 404 then "Not Found"
    else if s = 403 then "Forbidden"
    else if s = 401 then "Unauthorized"
    else if 400 ≤ s ∧ s < 500 then "Client Error"
    else if 500 ≤ s then "Server Error"
    else "Unknown"

/-- `getIssueType` of `src/tools.js`. -/
def getIssueType (httpStatus : Option Nat) (errorMessage : Option String) : String :=
  if strTruthy errorMessage then
    let e := errorMessage.getD ""
    if containsStr (lowerStr e) "timeout" then "timeout"
    else if containsStr e "ENOTFOUND" then "dns_error"
    else if containsStr e "ECONNREFUSED" then "connection_refused"
    else if containsStr e "ECONNRESET" then "connection_reset"
    else "network_error"
  else if !natTruthy httpStatus then "no_response"
  else
    let s := httpStatus.getD 0
    if 200 ≤ s ∧ s < 300 then "none"
    else if s = 404 then "404_not_found"
    else if s = 403 then "403_forbidden"
    else if s = 401 then "401_unauthorized"
    else if s = 500 then "500_internal_error"
    else if s = 502 then "502_bad_gateway"
    else if s = 503 then "503_service_unavailable"
    else if 300 ≤ s ∧ s < 400 then "redirect"
    else if 400 ≤ s ∧ s < 500 then "4xx_client_error"
    else if 500 ≤ s then "5xx_server_error"
    else "unknown"

/-- `getSeverity` of `src/tools.js`. -/
def getSeverity (isBroken : Bool) (issueType : String) : String :=
  if !isBroken then "none"
  else if ["404_not_found", "500_internal_error", "timeout", "dns_error"].contains issueType
    then "high"
  else if ["403_forbidden", "502_bad_gateway", "503_service_unavailable"].contains issueType
    then "medium"
  else if issueType = "redirect" then "low"
  else "medium"

/-- `isErrorHttpStatus` of `src/tools.js`. -/
def isErrorHttpStatus (httpStatus : Option Nat) : Bool :=
  let isRedirection :=
    match httpStatus with
    | none => false
    | some s => decide (STATUS_CODES_REDIRECTION ≤ s) && s != STATUS_CODES_NOT_MODIFIED
  let belowOk :=
    match httpStatus with
    | none => false
    | some s => decide (s < STATUS_CODES_OK)
  !natTruthy httpStatus || belowOk || isRedirection

/-- One element of the `records` array (a page observation).  Fields that
JavaScript leaves `undefined` on some code paths are `Option`s or carry
the value JS coerces them to (`isBaseWebsite` is only truthy on the seed
request's record; `anchors` defaults to `[]` via `record.anchors || []`). -/
structure PageRecord where
  url : String
  isBaseWebsite : Bool := false
  httpStatus : Option Nat := none
  errorMessage : Option String := none
  title : Option String := none
  linkUrls : Option (List String) := none
  anchors : List String := []
deriving Repr, DecidableEq

/-- `createUrlToRecordLookupTable` + `urlToRecord.get`: a `Map` written in
iteration order means the *last* record with a given url wins.  The
`anchorsSet` the table materializes is modelled by reading `anchors`
directly (the table always sets `anchorsSet = new Set(record.anchors || [])`). -/
def lookupRecord (records : List PageRecord) (url : String) : Option PageRecord :=
  records.reverse.find? (fun r => r.url == url)

/-- The LinkEdge produced by `createLink`. -/
structure Link where
  url : String
  normalizedUrl : String
  httpStatus : Option Nat
  errorMessage : Option String
  fragment : String
  fragmentValid : Bool
  crawled : Bool
deriving Repr, DecidableEq

/-- The fragment of a raw link URL as computed by `createLink`
(`indexOf('#') > 0 ? substring(index + 1) : ''`). -/
def linkFragment (linkUrl : String) : String :=
  match indexOfChar '#' linkUrl.data with
  | some i => if 0 < i then String.mk (linkUrl.data.drop (i + 1)) else ""
  | none => ""

/-- `createLink` of `src/tools.js`. -/
def createLink (linkUrl linkNurl : String) (records : List PageRecord) : Link :=
  let fragment := linkFragment linkUrl
  match lookupRecord records linkNurl with
  | none =>
    { url := linkUrl, normalizedUrl := linkNurl, httpStatus := none,
      errorMessage := none, fragment := fragment, fragmentValid := false,
      crawled := false }
  | some record =>
    { url := linkUrl, normalizedUrl := linkNurl,
      httpStatus := record.httpStatus, errorMessage := record.errorMessage,
      fragment := fragment,
      fragmentValid := fragment.isEmpty || record.anchors.contains fragment,
      crawled := true }

/-- `isLinkBroken` of `src/tools.js`. -/
def isLinkBroken (link : Link) : Bool :=
  link.crawled && (strTruthy link.errorMessage || isErrorHttpStatus link.httpStatus)

/-- One entry of the `results` array built by `getResults`. -/
structure ResultPage where
  url : String
  title : Option String
  links : List Link
deriving Repr, DecidableEq

/-- One iteration step of the `while (pendingUrls.length > 0)` loop of
`getResults`, with explicit fuel (the dataset-push side effects carry no
information used by the claims and are omitted). -/
def getResultsLoop (records : List PageRecord) :
    Nat → List String → List String → List ResultPage → Option (List ResultPage)
  | 0, _, _, _ => none
  | _ + 1, [], _, acc => some acc.reverse
  | fuel + 1, url :: rest, doneUrls, acc =>
    if doneUrls.contains url then getResultsLoop records fuel rest doneUrls acc
    else
      let doneUrls := url :: doneUrls
      let record := lookupRecord records url
      match record with
      | none =>
        getResultsLoop records fuel rest doneUrls
          ({ url := url, title := none, links := [] } :: acc)
      | some r =>
        match r.linkUrls with
        | none =>
          getResultsLoop records fuel rest doneUrls
            ({ url := url, title := r.title, links := [] } :: acc)
        | some linkUrls =>
          let links := linkUrls.map (fun lu => createLink lu (normalizeUrl lu) records)
          let pushed :=
            if r.isBaseWebsite then
              (linkUrls.map (fun lu => normalizeUrl lu)).filter
                (fun nurl => !doneUrls.contains nurl)
            else []
          getResultsLoop records fuel (rest ++ pushed) doneUrls
            ({ url := url, title := r.title, links := links } :: acc)

/-- All urls that can ever enter `pendingUrls`. -/
def candidateUrls (baseUrl : String) (records : List PageRecord) : List String :=
  baseUrl :: records.flatMap (fun r => (r.linkUrls.getD []).map (fun lu => normalizeUrl lu))

/-- A per-step bound on how many urls one record can push. -/
def linkBudget (records : List PageRecord) : Nat :=
  (records.flatMap (fun r => r.linkUrls.getD [])).length

/-- Loop measure: enough fuel for every not-yet-done candidate url to be
processed and re-fill the queue. -/
def loopMeasure (baseUrl : String) (records : List PageRecord)
    (pending doneUrls : List String) : Nat :=
  (linkBudget records + 1) *
      (((candidateUrls baseUrl records).dedup.filter
        (fun u => !doneUrls.contains u)).length)
    + pending.length

/-- Fuel that always suffices for `getResultsLoop` (proved below). -/
def resultsFuel (baseUrl : String) (records : List PageRecord) : Nat :=
  loopMeasure baseUrl records [baseUrl] [] + 1

/-- `getResults` of `src/tools.js` (total wrapper; `resultsFuel` is shown
sufficient by `getResultsLoop_isSome_of_measure_lt`). -/
def getResults (baseUrl : String) (records : List PageRecord) : List ResultPage :=
  (getResultsLoop records (resultsFuel baseUrl records) [baseUrl] [] []).getD []

/-- `getBrokenLinks` of `src/tools.js`. -/
def getBrokenLinks (results : List ResultPage) : List (Link × String) :=
  results.flatMap (fun result =>
    (result.links.filter (fun link => isLinkBroken link)).map
      (fun link => (link, result.url)))

/-- Modelled from the spec: `URL_PREFIX_REGEX` from the repository's
`consts.js`, which is not present under `src/`.  Per the spec's
description of domain scoping, `url.replace(URL_PREFIX_REGEX, '')`
strips a leading `http://`/`https://` scheme and an optional `www.`. -/
def stripUrlStart (url : String) : String :=
  let cs := url.data
  let afterScheme :=
    if "http://".data.isPrefixOf cs then cs.drop 7
    else if "https://".data.isPrefixOf cs then cs.drop 8
    else cs
  String.mk (ApifyUtils.stripWww afterScheme)

/-- `hasBaseDomain` of `src/tools.js`. -/
def hasBaseDomain (baseUrl url : String) : Bool :=
  (stripUrlStart baseUrl).data.isPrefixOf (stripUrlStart url).data

/-- `removeLastSlash` of `src/tools.js` (`url.replace(/\/$/, '')`). -/
def removeLastSlash (url : String) : String :=
  if url.data.getLast? = some '/' then String.mk url.data.dropLast else url

end Tools

/-! ### `src/page-handler.js` and the crawl loop of `src/main.js`

The regular expressions `SKIP_URL_PATTERNS` and `ARCHIVE_URL_PATTERNS`
are embedded as executable matchers over the lowercased character list
(all patterns carry the `/i` flag). -/

namespace PageHandler

def allDigits (cs : List Char) : Bool := !cs.isEmpty && cs.all Char.isDigit

/-- Consume one optional trailing `/` (models a final `\/?$`). -/
def dropOneTrailingSlash (cs : List Char) : List Char :=
  if cs.getLast? = some '/' then cs.dropLast else cs

/-- Does the regex `p` (viewed as an anchored-at-start matcher) match at
some position of `cs` (an unanchored regex test)? -/
def matchSomewhere (p : List Char → Bool) : List Char → Bool
  | [] => p []
  | c :: rest => p (c :: rest) || matchSomewhere p rest

/-- `/\/seg\/[^/]+\/page\/\d+/` at the current position. -/
def segPagAt (seg : List Char) (cs : List Char) : Bool :=
  if ('/' :: seg ++ "/".data).isPrefixOf cs then
    let rest := cs.drop (seg.length + 2)
    let inner := rest.takeWhile (· != '/')
    let rest2 := rest.dropWhile (· != '/')
    !inner.isEmpty && "/page/".data.isPrefixOf rest2 &&
      (match rest2.drop 6 with
       | d :: _ => d.isDigit
       | [] => false)
  else false

/-- `/\?page=\d+/`-style query pagination at the current position. -/
def queryPagAt (key : List Char) (cs : List Char) : Bool :=
  ('?' :: key ++ "=".data).isPrefixOf cs &&
    (match cs.drop (key.length + 2) with
     | d :: _ => d.isDigit
     | [] => false)

/-- An anchored suffix pattern `/\/name\/?$/`. -/
def endsWithSeg (name : List Char) (cs : List Char) : Bool :=
  ('/' :: name).isSuffixOf (dropOneTrailingSlash cs)

/-- `/\/seg\/[^/]+\/?$/` (tag/category/author archives). -/
def endsWithSegArg (seg : List Char) (cs : List Char) : Bool :=
  match (splitOnChar '/' (dropOneTrailingSlash cs)).reverse with
  | last :: prev :: _ :: _ => prev = seg && !last.isEmpty
  | _ => false

/-- `/\/\d{4}\/\d{2}\/?$/` (date archives). -/
def endsWithYearMonth (cs : List Char) : Bool :=
  match (splitOnChar '/' (dropOneTrailingSlash cs)).reverse with
  | last :: prev :: _ :: _ =>
    allDigits last && last.length = 2 && allDigits prev && prev.length = 4
  | _ => false

/-- `/\/\d{4}\/?$/` (year archives). -/
def endsWithYear (cs : List Char) : Bool :=
  match (splitOnChar '/' (dropOneTrailingSlash cs)).reverse with
  | last :: _ :: _ => allDigits last && last.length = 4
  | _ => false

/-- `shouldSkipUrl` of `src/page-handler.js` (`SKIP_URL_PATTERNS.some`). -/
def shouldSkipUrl (url : String) : Bool :=
  let cs := lowerList url.data
  -- `/\/page\/\d+\/?$/`
  (match (splitOnChar '/' (dropOneTrailingSlash cs)).reverse with
   | last :: prev :: _ :: _ => prev = "page".data && allDigits last
   | _ => false) ||
  matchSomewhere (segPagAt "tag".data) cs ||
  matchSomewhere (segPagAt "category".data) cs ||
  matchSomewhere (segPagAt "author".data) cs ||
  matchSomewhere (queryPagAt "page".data) cs ||
  matchSomewhere (queryPagAt "p".data) cs ||
  endsWithSeg "feed".data cs ||
  endsWithSeg "rss".data cs ||
  endsWithSeg "comments/feed".data cs ||
  endsWithSeg "trackback".data cs ||
  containsList "/wp-json/".data cs ||
  containsList "/wp-admin/".data cs ||
  containsList "/wp-content/uploads/".data cs ||
  containsList "/attachment/".data cs ||
  "/#respond".data.isSuffixOf cs ||
  containsList "/replytocom=".data cs ||
  (containsList "/share?".data cs || containsList "/share/".data cs) ||
  endsWithSeg "print".data cs

/-- `isArchivePage` of `src/page-handler.js` (`ARCHIVE_URL_PATTERNS.some`). -/
def isArchivePage (url : String) : Bool :=
  let cs := lowerList url.data
  endsWithSegArg "tag".data cs ||
  endsWithSegArg "category".data cs ||
  endsWithSegArg "author".data cs ||
  endsWithYearMonth cs ||
  endsWithYear cs ||
  containsList "/archive/".data cs

/-- The file extensions treated as resources. -/
def resourceExts : List String :=
  ["pdf", "doc", "docx", "xls", "xlsx", "zip", "rar", "mp3", "mp4", "jpg",
   "jpeg", "png", "gif", "svg", "webp", "css", "js", "woff", "woff2", "ttf",
   "eot", "ico"]

/-- `pathname.split('.').pop()` lowercased (the whole pathname when it
contains no dot, exactly as in JS). -/
def extOfPath (pathname : String) : String :=
  match (splitOnChar '.' pathname.data).reverse with
  | last :: _ => lowerStr (String.mk last)
  | [] => ""

/-- `new URL(href, request.url).href`, modelled for the resolution cases
the repository's pages produce: absolute hrefs pass through; `//`,
`/`-rooted, and relative hrefs are joined against the parsed base.
(No `.`/`..` normalization is applied; the value is immediately
re-parsed by the canonicalizer.) -/
def resolveHref (href baseU : String) : Option String :=
  if (parseScheme (stripTabNewline (trimChars href.data))).isSome then some href
  else
    match jsParseURL baseU with
    | none => none
    | some b =>
      let cs := href.data
      if "//".data.isPrefixOf cs then some (b.protocol ++ href)
      else if "/".data.isPrefixOf cs then
        some (b.protocol ++ "//" ++ b.hostname ++ href)
      else
        let dir := String.mk ((b.pathname.data.reverse.dropWhile (· != '/')).reverse)
        some (b.protocol ++ "//" ++ b.hostname ++ dir ++ href)

/-- Does the raw href use one of the schemes discarded up front? -/
def isNonHttpHref (href : String) : Bool :=
  "#".data.isPrefixOf href.data || "javascript:".data.isPrefixOf href.data ||
  "mailto:".data.isPrefixOf href.data || "tel:".data.isPrefixOf href.data ||
  "data:".data.isPrefixOf href.data || "blob:".data.isPrefixOf href.data

/-- The hostname used for internal/external comparison:
`new URL(u).hostname.replace(/^www\./, '').toLowerCase()`. -/
def hostForCompare (u : String) : Option String :=
  (jsParseURL u).map (fun p => lowerStr (String.mk (ApifyUtils.stripWww p.hostname.data)))

/-- The per-href classification of `getAndEnqueueLinkUrls`:
`(isInternal, linkType)`. -/
def classifyLink (normalizedUrl baseHostname : String) : Bool × String :=
  let (linkType, isInternal) :=
    match hostForCompare normalizedUrl with
    | some h => if h = baseHostname then ("internal", true) else ("external", false)
    | none => ("unknown", false)
  let linkType :=
    match jsParseURL normalizedUrl with
    | some p => if resourceExts.contains (extOfPath p.pathname) then "resource" else linkType
    | none => linkType
  (isInternal, linkType)

/-- The `$('a[href]').each` body of `getAndEnqueueLinkUrls`, processing
hrefs in document order with the `seenUrls` set threaded through;
returns `(allLinks, internalLinksToEnqueue)` in order.  As in the
source, `seenUrls.add` happens before the skip-pattern test, so a
skipped url also blocks later duplicates.  Link metadata (`linkData`)
carries no information used by the claims and is omitted. -/
def processHrefs (requestUrl baseHostname : String) (checkExternalLinks : Bool) :
    List String → List String → List String × List String
  | [], _ => ([], [])
  | href :: rest, seen =>
    if isNonHttpHref href then
      processHrefs requestUrl baseHostname checkExternalLinks rest seen
    else
      match resolveHref href requestUrl with
      | none => processHrefs requestUrl baseHostname checkExternalLinks rest seen
      | some absoluteUrl =>
        match ApifyUtils.normalizeUrl absoluteUrl with
        | none => processHrefs requestUrl baseHostname checkExternalLinks rest seen
        | some normalizedUrl =>
          if seen.contains normalizedUrl then
            processHrefs requestUrl baseHostname checkExternalLinks rest seen
          else if shouldSkipUrl normalizedUrl then
            processHrefs requestUrl baseHostname checkExternalLinks rest
              (normalizedUrl :: seen)
          else
            let (isInternal, linkType) := classifyLink normalizedUrl baseHostname
            let (allTail, enqTail) :=
              processHrefs requestUrl baseHostname checkExternalLinks rest
                (normalizedUrl :: seen)
            let allHere :=
              if isInternal || checkExternalLinks then normalizedUrl :: allTail
              else allTail
            let enqHere :=
              if isInternal && linkType != "resource" &&
                  !isArchivePage normalizedUrl then
                normalizedUrl :: enqTail
              else enqTail
            (allHere, enqHere)

/-- The result of `getAndEnqueueLinkUrls`: the checked links and the
requests added to the queue (url with its `userData.depth`). -/
structure ExtractOut where
  linkUrls : List String
  enqueued : List (String × Nat)
deriving Repr, DecidableEq

/-- `getAndEnqueueLinkUrls` of `src/page-handler.js` as a function of the
current request url and the page's hrefs. -/
def getAndEnqueueLinkUrls (requestUrl : String) (hrefs : List String)
    (baseUrl : String) (nextDepth maxDepth : Nat) (checkExternalLinks : Bool) :
    ExtractOut :=
  let currentIsArchive := isArchivePage requestUrl
  let effectiveNextDepth := if currentIsArchive then maxDepth else nextDepth
  let baseHostname := (hostForCompare baseUrl).getD ""
  let (allLinks, toEnqueue) :=
    processHrefs requestUrl baseHostname checkExternalLinks hrefs []
  let enqueued :=
    if effectiveNextDepth ≤ maxDepth && !toEnqueue.isEmpty then
      toEnqueue.map (fun u => (u, effectiveNextDepth))
    else []
  { linkUrls := allLinks, enqueued := enqueued }

/-! The crawl loop of `src/main.js`: the `CheerioCrawler` request queue is
drained FIFO; `requestQueue.addRequest` deduplicates on the unique key
(the enqueued normalized url).  A site is a finite map from url to the
hrefs found on that page; fetches always succeed (HTTP status plays no
role in the visitation claims). -/

structure Site where
  pages : List (String × List String)
deriving Repr, DecidableEq

def siteHrefs (site : Site) (url : String) : List String :=
  ((site.pages.find? (fun p => p.1 == url)).map (fun p => p.2)).getD []

structure CrawlRequest where
  url : String
  depth : Nat
  isBaseLabel : Bool
deriving Repr, DecidableEq

/-- The `requestHandler` loop of `src/main.js`, with fuel.  Returns the
list of `record.url`s pushed to `records` (the observation store). -/
def crawlLoop (site : Site) (baseUrl : String) (maxCrawlDepth : Nat)
    (checkExternalLinks : Bool) :
    Nat → List CrawlRequest → List String → List String → Option (List String)
  | 0, _, _, _ => none
  | _ + 1, [], _, visited => some visited.reverse
  | fuel + 1, req :: rest, seenKeys, visited =>
    let url := req.url
    let normalizedUrl := Tools.removeLastSlash url
    let recordUrl := Tools.normalizeUrl url
    let isWithinBaseDomain := Tools.hasBaseDomain baseUrl normalizedUrl
    let doExtract := (req.isBaseLabel || isWithinBaseDomain) && req.depth < maxCrawlDepth
    if doExtract then
      let out := getAndEnqueueLinkUrls url (siteHrefs site url) baseUrl
        (req.depth + 1) maxCrawlDepth checkExternalLinks
      let fresh := out.enqueued.filter (fun e => !seenKeys.contains e.1)
      let newReqs := fresh.map (fun e => { url := e.1, depth := e.2, isBaseLabel := false })
      crawlLoop site baseUrl maxCrawlDepth checkExternalLinks fuel
        (rest ++ newReqs) (seenKeys ++ fresh.map (fun e => e.1))
        (recordUrl :: visited)
    else
      crawlLoop site baseUrl maxCrawlDepth checkExternalLinks fuel
        rest seenKeys (recordUrl :: visited)

/-- Run the crawl from the seed request (depth 0, base label), as
`src/main.js` sets it up. -/
def crawl (site : Site) (baseUrl : String) (maxCrawlDepth : Nat)
    (checkExternalLinks : Bool) (fuel : Nat) : Option (List String) :=
  crawlLoop site baseUrl maxCrawlDepth checkExternalLinks fuel
    [{ url := baseUrl, depth := 0, isBaseLabel := true }] [baseUrl] []

end PageHandler

/-! ### Claim-support definitions -/

namespace Tools

/-- The normalized link targets of records flagged as the base website:
the only urls `getResults` ever pushes onto `pendingUrls` besides the
base url itself. -/
def baseTargets (records : List PageRecord) : List String :=
  records.flatMap (fun r =>
    if r.isBaseWebsite then (r.linkUrls.getD []).map (fun lu => normalizeUrl lu)
    else [])

/-- Fixture: a base record linking to an in-domain crawled page that
itself links onward. -/
def chainRecords : List PageRecord :=
  [ { url := "http://a.com", isBaseWebsite := true, httpStatus := some 200,
      title := some "A", linkUrls := some ["http://a.com/b"] },
    { url := "http://a.com/b", httpStatus := some 200, title := some "B",
      linkUrls := some ["http://a.com/c"] },
    { url := "http://a.com/c", httpStatus := some 200, title := some "C" } ]

end Tools

namespace ApifyUtils

/-- A character admissible in the host part of a canonical-form URL so
that re-parsing recovers the host verbatim: no authority delimiters, no
userinfo/port markers, no tab/newline, no uppercase ASCII. -/
def hostCharOk (c : Char) : Bool :=
  !(c == '/' || c == '\\' || c == '?' || c == '#' || c == '@' || c == ':' ||
    c == '\t' || c == '\n' || c == '\r' || ('A' ≤ c && c ≤ 'Z'))

/-- A character admissible in the path part of a canonical-form URL so
that re-parsing recovers the path verbatim. -/
def pathCharOk (c : Char) : Bool :=
  !(c == '?' || c == '#' || c == '\t' || c == '\n' || c == '\r')

/-- Does the list contain two adjacent slashes? -/
def hasDoubleSlash : List Char → Bool
  | [] => false
  | c :: rest =>
    match rest with
    | [] => false
    | d :: _ => (c == '/' && d == '/') || hasDoubleSlash rest

/-- A canonical-form URL on which `normalizeUrl` is the identity (proved
below): `http(s)://` followed by a non-empty, lowercase, `www.`-free
host, a slash-normalized path, no query, and no stray whitespace.
Outputs of `normalizeUrl` outside this set (for example a host that
still starts with `www.` or a query whose decoded values contain `&`)
are where idempotence genuinely fails. -/
def canonTame (v : String) : Bool :=
  let cs := v.data
  let rest :=
    if "http://".data.isPrefixOf cs then some (cs.drop 7)
    else if "https://".data.isPrefixOf cs then some (cs.drop 8)
    else none
  match rest with
  | none => false
  | some r =>
    let host := r.takeWhile (· != '/')
    let path := r.dropWhile (· != '/')
    !host.isEmpty && host.all hostCharOk &&
    !("www.".data.isPrefixOf host) &&
    path.all pathCharOk &&
    path.getLast? != some '/' &&
    !hasDoubleSlash path &&
    (match cs.getLast? with
     | some c => !jsWhitespace c
     | none => true)

end ApifyUtils

namespace PageHandler

/-- Fixture: a site whose page at depth 2 links to a tag archive whose
only outbound link is an otherwise unreachable page. -/
def archiveSite : Site :=
  { pages := [
      ("http://site.com", ["http://site.com/a"]),
      ("http://site.com/a", ["http://site.com/b"]),
      ("http://site.com/b", ["http://site.com/tag/news"]),
      ("http://site.com/tag/news", ["http://site.com/hidden"]),
      ("http://site.com/hidden", []) ] }

end PageHandler

/-! ## Theorems -/

/-- C1: a LinkEdge whose canonical target has no record in the lookup
table is reported uncrawled, carries no status or error, and is never
classified as broken. -/
theorem createLink_uncrawled_not_broken (linkUrl linkNurl : String)
    (records : List Tools.PageRecord)
    (h : Tools.lookupRecord records linkNurl = none) :
    (Tools.createLink linkUrl linkNurl records).crawled = false ∧
    (Tools.createLink linkUrl linkNurl records).httpStatus = none ∧
    (Tools.createLink linkUrl linkNurl records).errorMessage = none ∧
    Tools.isLinkBroken (Tools.createLink linkUrl linkNurl records) = false := by
  simp [Tools.createLink, h, Tools.isLinkBroken]

/-- C1 witness: a concrete link with no record is not broken. -/
theorem createLink_uncrawled_not_broken_witness :
    Tools.lookupRecord [] "http://x.com/p" = none ∧
    Tools.isLinkBroken
      (Tools.createLink "http://x.com/p#frag" "http://x.com/p" []) = false := by
  refine ⟨by decide, ?_⟩
  exact (createLink_uncrawled_not_broken "http://x.com/p#frag" "http://x.com/p" []
    (by decide)).2.2.2

/-- C2 counterexample: a fragment-free link to an uncrawled target has
`fragmentValid = false`, contradicting the claimed "valid by convention"
for the no-fragment case. -/
theorem fragmentValid_uncrawled_counterexample :
    (Tools.createLink "https://x.com/p" "https://x.com/p" []).fragment = "" ∧
    (Tools.createLink "https://x.com/p" "https://x.com/p" []).crawled = false ∧
    (Tools.createLink "https://x.com/p" "https://x.com/p" []).fragmentValid = false := by
  decide

/-- C2 amended: for a crawled target, `fragmentValid` holds iff the link
has no fragment or the fragment is among the target record's anchors;
for an uncrawled target `fragmentValid` is always `false`, even when the
link has no fragment. -/
theorem createLink_fragmentValid_characterization (linkUrl linkNurl : String)
    (records : List Tools.PageRecord) :
    ((Tools.createLink linkUrl linkNurl records).crawled = false →
      (Tools.createLink linkUrl linkNurl records).fragmentValid = false) ∧
    ((Tools.createLink linkUrl linkNurl records).crawled = true →
      ((Tools.createLink linkUrl linkNurl records).fragmentValid = true ↔
        ((Tools.createLink linkUrl linkNurl records).fragment = "" ∨
          ((Tools.lookupRecord records linkNurl).elim [] Tools.PageRecord.anchors).contains
            (Tools.createLink linkUrl linkNurl records).fragment = true))) := by
  unfold Tools.createLink
  cases h : Tools.lookupRecord records linkNurl with
  | none => simp
  | some r =>
    simp only [Option.elim]
    constructor
    · intro hc; simp at hc
    · intro _
      simp [String.isEmpty_iff]

/-- C2 amended witness: a crawled target whose anchors contain the
fragment yields a valid fragment. -/
theorem createLink_fragmentValid_characterization_witness :
    (Tools.createLink "http://a.com/p#sec" "http://a.com/p"
      [{ url := "http://a.com/p", anchors := ["sec"] }]).fragmentValid = true := by
  have h := createLink_fragmentValid_characterization "http://a.com/p#sec"
    "http://a.com/p" [{ url := "http://a.com/p", anchors := ["sec"] }]
  exact (h.2 (by decide)).mpr (by decide)

/-- C4 counterexample: `classify(null, "Error: Navigation timed out")`
yields status `"Error"`, issue type `"network_error"` and severity
`"medium"` — not `"Timeout"`/`"timeout"`/`"high"` as claimed, because
the lowercased message contains "timed out", not the literal substring
"timeout". -/
theorem classify_timed_out_counterexample :
    Tools.getStatus none (some "Error: Navigation timed out") = "Error" ∧
    Tools.getIssueType none (some "Error: Navigation timed out") = "network_error" ∧
    Tools.getSeverity true
      (Tools.getIssueType none (some "Error: Navigation timed out")) = "medium" := by
  decide

/-- C4 amended: classification is a deterministic function of
`(httpStatus, errorMessage)` with `classify(404, null)` giving
Not Found / 404_not_found / high / broken and `classify(200, null)`
giving OK / not broken, as claimed; but
`classify(null, "Error: Navigation timed out")` gives Error /
network_error / medium (still broken for a crawled link), and the
Timeout / timeout / high bucket fires only when the lowercased message
contains the literal substring "timeout". -/
theorem classification_concrete_values :
    Tools.getStatus (some 404) none = "Not Found" ∧
    Tools.getIssueType (some 404) none = "404_not_found" ∧
    Tools.getSeverity true (Tools.getIssueType (some 404) none) = "high" ∧
    Tools.isLinkBroken
      { url := "u", normalizedUrl := "u", httpStatus := some 404,
        errorMessage := none, fragment := "", fragmentValid := true,
        crawled := true } = true ∧
    Tools.getStatus (some 200) none = "OK" ∧
    Tools.isLinkBroken
      { url := "u", normalizedUrl := "u", httpStatus := some 200,
        errorMessage := none, fragment := "", fragmentValid := true,
        crawled := true } = false ∧
    Tools.getStatus none (some "Error: Navigation timed out") = "Error" ∧
    Tools.getIssueType none (some "Error: Navigation timed out") = "network_error" ∧
    Tools.getSeverity true
      (Tools.getIssueType none (some "Error: Navigation timed out")) = "medium" ∧
    Tools.isLinkBroken
      { url := "u", normalizedUrl := "u", httpStatus := none,
        errorMessage := some "Error: Navigation timed out", fragment := "",
        fragmentValid := true, crawled := true } = true ∧
    Tools.getStatus none (some "Navigation timeout of 15000 ms exceeded") = "Timeout" ∧
    Tools.getIssueType none (some "Navigation timeout of 15000 ms exceeded") = "timeout" ∧
    Tools.getSeverity true
      (Tools.getIssueType none
        (some "Navigation timeout of 15000 ms exceeded")) = "high" := by
  decide

/-- C3 counterexample: canonicalization is not idempotent — a host with
a doubled `www.` prefix loses one `www.` per pass, so a second
application changes the result. -/
theorem normalizeUrl_not_idempotent :
    ApifyUtils.normalizeUrl "http://www.www.example.com/" =
      some "http://www.example.com" ∧
    ApifyUtils.normalizeUrl "http://www.example.com" = some "http://example.com" ∧
    ("http://www.example.com" : String) ≠ "http://example.com" := by
  decide

/-- C5 counterexample: an in-domain crawled page (`/b`, with a non-null
`linkUrls`) does not get its outbound target `/c` enqueued — only the
record flagged `isBaseWebsite` feeds the traversal, so `/c` never
becomes a result page. -/
theorem getResults_non_base_not_enqueued :
    ((Tools.getResults "http://a.com" Tools.chainRecords).map (fun p => p.url)) =
      ["http://a.com", "http://a.com/b"] ∧
    (Tools.lookupRecord Tools.chainRecords "http://a.com/b").isSome = true ∧
    ((Tools.lookupRecord Tools.chainRecords "http://a.com/b").map
        (fun r => r.linkUrls)) = some (some ["http://a.com/c"]) ∧
    Tools.hasBaseDomain "http://a.com" "http://a.com/b" = true ∧
    ¬ "http://a.com/c" ∈
        ((Tools.getResults "http://a.com" Tools.chainRecords).map (fun p => p.url)) := by
  decide

/-- C6 counterexample: a page reachable only through a tag-archive URL
at crawl depth 3 with `maxCrawlDepth = 3` is *not* visited: archive URLs
are excluded from enqueueing altogether, so neither the archive nor the
hidden page behind it is ever crawled. -/
theorem archive_page_not_visited :
    PageHandler.isArchivePage "http://site.com/tag/news" = true ∧
    PageHandler.crawl PageHandler.archiveSite "http://site.com" 3 true 50 =
      some ["http://site.com", "http://site.com/a", "http://site.com/b"] ∧
    ¬ "http://site.com/tag/news" ∈
        ["http://site.com", "http://site.com/a", "http://site.com/b"] ∧
    ¬ "http://site.com/hidden" ∈
        ["http://site.com", "http://site.com/a", "http://site.com/b"] := by
  decide

/-- C7 counterexample: `utm_id` is a `utm_*` key but is not in the
deny-list, so it survives canonicalization and the claimed equality
fails for it. -/
theorem utm_id_not_dropped :
    ApifyUtils.normalizeUrl "https://x.com/p?utm_id=5&b=2" =
      some "https://x.com/p?b=2&utm_id=5" ∧
    ApifyUtils.normalizeUrl "https://x.com/p?b=2" = some "https://x.com/p?b=2" := by
  decide

/-! Helper lemmas about the string sort used for query parameters. -/

theorem listLe_total (as bs : List Char) :
    listLe as bs = true ∨ listLe bs as = true := by
  induction as generalizing bs with
  | nil => left; rfl
  | cons a as ih =>
    cases bs with
    | nil => right; rfl
    | cons b bs =>
      simp only [listLe]
      rcases Nat.lt_trichotomy a.toNat b.toNat with h | h | h
      · left; simp [h]
      · have h1 : ¬ a.toNat < b.toNat := by omega
        have h2 : ¬ b.toNat < a.toNat := by omega
        simpa [h1, h2] using ih bs
      · right; simp [h]

theorem listLe_trans (as bs cs : List Char) (h1 : listLe as bs = true)
    (h2 : listLe bs cs = true) : listLe as cs = true := by
  induction as generalizing bs cs with
  | nil => rfl
  | cons a as ih =>
    cases bs with
    | nil => simp [listLe] at h1
    | cons b bs =>
      cases cs with
      | nil => simp [listLe] at h2
      | cons c cs =>
        simp only [listLe] at h1 h2 ⊢
        rcases Nat.lt_trichotomy a.toNat b.toNat with hab | hab | hab
        · rcases Nat.lt_trichotomy b.toNat c.toNat with hbc | hbc | hbc
          · have hac : a.toNat < c.toNat := by omega
            simp [hac]
          · have hac : a.toNat < c.toNat := by omega
            simp [hac]
          · have h2f : ¬ b.toNat < c.toNat := by omega
            have h2g : c.toNat < b.toNat := by omega
            simp [h2f, h2g] at h2
        · rcases Nat.lt_trichotomy b.toNat c.toNat with hbc | hbc | hbc
          · have hac : a.toNat < c.toNat := by omega
            simp [hac]
          · have hac1 : ¬ a.toNat < c.toNat := by omega
            have hac2 : ¬ c.toNat < a.toNat := by omega
            have hab1 : ¬ a.toNat < b.toNat := by omega
            have hab2 : ¬ b.toNat < a.toNat := by omega
            have hbc1 : ¬ b.toNat < c.toNat := by omega
            have hbc2 : ¬ c.toNat < b.toNat := by omega
            simp only [if_neg hab1, if_neg hab2] at h1
            simp only [if_neg hbc1, if_neg hbc2] at h2
            simp only [if_neg hac1, if_neg hac2]
            exact ih bs cs h1 h2
          · have h2f : ¬ b.toNat < c.toNat := by omega
            have h2g : c.toNat < b.toNat := by omega
            simp [h2f, h2g] at h2
        · have h1f : ¬ a.toNat < b.toNat := by omega
          have h1g : b.toNat < a.toNat := by omega
          simp [h1f, h1g] at h1

theorem strLe_total (a b : String) : strLe a b = true ∨ strLe b a = true :=
  listLe_total a.data b.data

theorem strLe_trans (a b c : String) (h1 : strLe a b = true)
    (h2 : strLe b c = true) : strLe a c = true :=
  listLe_trans a.data b.data c.data h1 h2

theorem mem_insertSorted (a b : String) (l : List String) :
    b ∈ ApifyUtils.insertSorted a l ↔ b = a ∨ b ∈ l := by
  induction l with
  | nil => simp [ApifyUtils.insertSorted]
  | cons c t ih =>
    simp only [ApifyUtils.insertSorted]
    by_cases h : strLe a c = true
    · rw [if_pos h]
      simp only [List.mem_cons]
    · rw [if_neg h]
      simp only [List.mem_cons, ih]
      tauto

theorem pairwise_insertSorted (a : String) (l : List String)
    (h : List.Pairwise (fun x y => strLe x y = true) l) :
    List.Pairwise (fun x y => strLe x y = true) (ApifyUtils.insertSorted a l) := by
  induction l with
  | nil => simp [ApifyUtils.insertSorted]
  | cons c t ih =>
    rcases List.pairwise_cons.mp h with ⟨hc, ht⟩
    simp only [ApifyUtils.insertSorted]
    by_cases hac : strLe a c = true
    · rw [if_pos hac]
      refine List.pairwise_cons.mpr ⟨?_, h⟩
      intro x hx
      rcases List.mem_cons.mp hx with rfl | hx
      · exact hac
      · exact strLe_trans a c x hac (hc x hx)
    · rw [if_neg hac]
      refine List.pairwise_cons.mpr ⟨?_, ih ht⟩
      intro x hx
      rcases (mem_insertSorted a x t).mp hx with hxa | hx
      · rw [hxa]
        rcases strLe_total a c with h1 | h1
        · exact absurd h1 hac
        · exact h1
      · exact hc x hx

theorem sorted_sortStrings (l : List String) :
    List.Pairwise (fun x y => strLe x y = true) (ApifyUtils.sortStrings l) := by
  induction l with
  | nil => simp [ApifyUtils.sortStrings]
  | cons a t ih => exact pairwise_insertSorted a _ ih

theorem mem_sortStrings (b : String) (l : List String) :
    b ∈ ApifyUtils.sortStrings l ↔ b ∈ l := by
  induction l with
  | nil => simp [ApifyUtils.sortStrings]
  | cons a t ih =>
    show b ∈ ApifyUtils.insertSorted a (ApifyUtils.sortStrings t) ↔ _
    rw [mem_insertSorted]
    simp [ih, List.mem_cons]

/-- C7 amended: canonicalization drops exactly the sixteen deny-listed
keys (`utm_source`, `utm_medium`, `utm_campaign`, `utm_term`,
`utm_content` — not every `utm_*` key — plus `fbclid`, `gclid`,
`msclkid`, `ref`, `source`, `mc_cid`, `mc_eid`, `_ga`, `_gl`, `share`,
`replytocom`), matched case-insensitively; the surviving parameters are
sorted lexicographically by their `key=value` string; the claim's
concrete `utm_source` example holds. -/
theorem canonParams_filtered_sorted :
    (∀ q : String,
      List.Pairwise (fun a b => strLe a b = true) (ApifyUtils.canonParams q) ∧
      ∀ s ∈ ApifyUtils.canonParams q, ∃ k v, s = k ++ "=" ++ v ∧
        ApifyUtils.ignoredParams.contains (lowerStr k) = false) ∧
    ApifyUtils.normalizeUrl "https://x.com/p?utm_source=a&b=2" =
      ApifyUtils.normalizeUrl "https://x.com/p?b=2" := by
  constructor
  · intro q
    constructor
    · exact sorted_sortStrings _
    · intro s hs
      unfold ApifyUtils.canonParams at hs
      rw [mem_sortStrings] at hs
      rcases List.mem_map.mp hs with ⟨kv, hkv, rfl⟩
      rcases List.mem_filter.mp hkv with ⟨_, hpred⟩
      exact ⟨kv.1, kv.2, rfl, by simpa using hpred⟩
  · decide

/-- C7 amended witness: a concrete surviving parameter decomposes as
`key=value` with a non-deny-listed key. -/
theorem canonParams_filtered_sorted_witness :
    ∃ k v, ("b=2" : String) = k ++ "=" ++ v ∧
      ApifyUtils.ignoredParams.contains (lowerStr k) = false :=
  (canonParams_filtered_sorted.1 "?b=2&utm_source=a").2 "b=2" (by decide)

/-! Helper lemmas for the result-resolver traversal. -/

theorem mem_baseTargets (records : List Tools.PageRecord)
    (r : Tools.PageRecord) (hr : r ∈ records) (hb : r.isBaseWebsite = true)
    (lu : String) (hlu : lu ∈ r.linkUrls.getD []) :
    Tools.normalizeUrl lu ∈ Tools.baseTargets records := by
  refine List.mem_flatMap.mpr ⟨r, hr, ?_⟩
  rw [if_pos hb]
  exact List.mem_map_of_mem _ hlu

theorem getResultsLoop_mem_allowed (records : List Tools.PageRecord)
    (allowed : List String)
    (hpush : ∀ r ∈ records, r.isBaseWebsite = true →
      ∀ lu ∈ r.linkUrls.getD [], Tools.normalizeUrl lu ∈ allowed) :
    ∀ (fuel : Nat) (pending done : List String)
      (acc res : List Tools.ResultPage),
      (∀ u ∈ pending, u ∈ allowed) →
      (∀ pg ∈ acc, pg.url ∈ allowed) →
      Tools.getResultsLoop records fuel pending done acc = some res →
      ∀ pg ∈ res, pg.url ∈ allowed := by
  intro fuel
  induction fuel with
  | zero =>
    intro pending done acc res hp ha hres
    simp [Tools.getResultsLoop] at hres
  | succ fuel ih =>
    intro pending done acc res hp ha hres pg hpg
    cases pending with
    | nil =>
      simp only [Tools.getResultsLoop, Option.some.injEq] at hres
      subst hres
      exact ha pg (List.mem_reverse.mp hpg)
    | cons url rest =>
      have hurl : url ∈ allowed := hp url (List.mem_cons_self url rest)
      have hrest : ∀ u ∈ rest, u ∈ allowed := fun u hu =>
        hp u (List.mem_cons_of_mem _ hu)
      rw [Tools.getResultsLoop] at hres
      by_cases hdone : done.contains url = true
      · rw [if_pos hdone] at hres
        exact ih rest done acc res hrest ha hres pg hpg
      · rw [if_neg hdone] at hres
        cases hrec : Tools.lookupRecord records url with
        | none =>
          rw [hrec] at hres
          dsimp only at hres
          exact ih rest (url :: done) _ res hrest
            (fun q hq => by
              rcases List.mem_cons.mp hq with hq1 | hq1
              · rw [hq1]; exact hurl
              · exact ha q hq1) hres pg hpg
        | some r =>
          rw [hrec] at hres
          dsimp only at hres
          cases hlinks : r.linkUrls with
          | none =>
            rw [hlinks] at hres
            dsimp only at hres
            exact ih rest (url :: done) _ res hrest
              (fun q hq => by
                rcases List.mem_cons.mp hq with hq1 | hq1
                · rw [hq1]; exact hurl
                · exact ha q hq1) hres pg hpg
          | some linkUrls =>
            rw [hlinks] at hres
            dsimp only at hres
            refine ih _ (url :: done) _ res ?_
              (fun q hq => by
                rcases List.mem_cons.mp hq with hq1 | hq1
                · rw [hq1]; exact hurl
                · exact ha q hq1) hres pg hpg
            intro u hu
            rcases List.mem_append.mp hu with hu1 | hu1
            · exact hrest u hu1
            · by_cases hbase : r.isBaseWebsite = true
              · rw [if_pos hbase] at hu1
                rcases List.mem_filter.mp hu1 with ⟨hu2, _⟩
                rcases List.mem_map.mp hu2 with ⟨lu, hlu, rfl⟩
                refine hpush r ?_ hbase lu (by simp [hlinks, hlu])
                have := List.mem_reverse.mp (List.mem_of_find?_eq_some hrec)
                exact this
              · rw [if_neg hbase] at hu1
                simp at hu1

/-- C5 amended: `getResults` enqueues a page's outbound targets only
when that page's record is flagged `isBaseWebsite` (in the code, solely
the seed request's record), so every result page is either the base url
or a direct normalized link target of a base-flagged record; crawled
in-domain non-base pages contribute edges but never new result pages,
and external/resource leaves contribute nothing. -/
theorem getResults_pages_only_base_targets (baseUrl : String)
    (records : List Tools.PageRecord) :
    ∀ pg ∈ Tools.getResults baseUrl records,
      pg.url = baseUrl ∨ pg.url ∈ Tools.baseTargets records := by
  intro pg hpg
  unfold Tools.getResults at hpg
  cases hres : Tools.getResultsLoop records (Tools.resultsFuel baseUrl records)
      [baseUrl] [] [] with
  | none => rw [hres] at hpg; simp at hpg
  | some res =>
    rw [hres] at hpg
    simp only [Option.getD_some] at hpg
    have hall := getResultsLoop_mem_allowed records
      (baseUrl :: Tools.baseTargets records)
      (fun r hr hb lu hlu =>
        List.mem_cons_of_mem _ (mem_baseTargets records r hr hb lu hlu))
      (Tools.resultsFuel baseUrl records) [baseUrl] [] [] res
      (fun u hu => by
        rcases List.mem_cons.mp hu with h1 | h1
        · rw [h1]; exact List.mem_cons_self _ _
        · simp at h1)
      (fun q hq => by simp at hq)
      hres pg hpg
    rcases List.mem_cons.mp hall with h1 | h1
    · exact Or.inl h1
    · exact Or.inr h1

/-- C5 amended witness: the second result page of the chain fixture is a
direct link target of the base record. -/
theorem getResults_pages_only_base_targets_witness :
    ((Tools.getResults "http://a.com" Tools.chainRecords).getD 1
        { url := "", title := none, links := [] }).url = "http://a.com" ∨
    ((Tools.getResults "http://a.com" Tools.chainRecords).getD 1
        { url := "", title := none, links := [] }).url ∈
      Tools.baseTargets Tools.chainRecords :=
  getResults_pages_only_base_targets "http://a.com" Tools.chainRecords _ (by decide)

/-! Helper lemma for the link-extraction enqueue set. -/

theorem processHrefs_enqueued_not_archive (requestUrl baseHostname : String)
    (chk : Bool) :
    ∀ (hrefs seen : List String),
      ∀ u ∈ (PageHandler.processHrefs requestUrl baseHostname chk hrefs seen).2,
        PageHandler.isArchivePage u = false := by
  intro hrefs
  induction hrefs with
  | nil => intro seen u hu; simp [PageHandler.processHrefs] at hu
  | cons href rest ih =>
    intro seen u hu
    rw [PageHandler.processHrefs] at hu
    by_cases h1 : PageHandler.isNonHttpHref href = true
    · rw [if_pos h1] at hu; exact ih seen u hu
    · rw [if_neg h1] at hu
      cases h2 : PageHandler.resolveHref href requestUrl with
      | none => rw [h2] at hu; exact ih seen u hu
      | some absoluteUrl =>
        rw [h2] at hu
        dsimp only at hu
        cases h3 : ApifyUtils.normalizeUrl absoluteUrl with
        | none => rw [h3] at hu; exact ih seen u hu
        | some normalizedUrl =>
          rw [h3] at hu
          dsimp only at hu
          by_cases h4 : seen.contains normalizedUrl = true
          · rw [if_pos h4] at hu; exact ih seen u hu
          · rw [if_neg h4] at hu
            by_cases h5 : PageHandler.shouldSkipUrl normalizedUrl = true
            · rw [if_pos h5] at hu; exact ih _ u hu
            · rw [if_neg h5] at hu
              rcases hcl : PageHandler.classifyLink normalizedUrl baseHostname with
                ⟨isInternal, linkType⟩
              rw [hcl] at hu
              dsimp only at hu
              rcases hp : PageHandler.processHrefs requestUrl baseHostname chk rest
                  (normalizedUrl :: seen) with ⟨allTail, enqTail⟩
              rw [hp] at hu
              dsimp only at hu
              by_cases h6 : (isInternal && linkType != "resource" &&
                  !PageHandler.isArchivePage normalizedUrl) = true
              · rw [if_pos h6] at hu
                rcases List.mem_cons.mp hu with h7 | h7
                · rw [h7]
                  have := (Bool.and_eq_true _ _).mp h6
                  simpa using this.2
                · have := ih (normalizedUrl :: seen) u (by rw [hp]; exact h7)
                  exact this
              · rw [if_neg h6] at hu
                exact ih (normalizedUrl :: seen) u (by rw [hp]; exact hu)

/-- C6 amended: when link extraction runs on an archive-pattern page,
the discovered links are enqueued at depth `maxCrawlDepth` — the whole
remaining depth budget is consumed, not none of it — and archive-pattern
URLs themselves are never enqueued, so a page reachable only through a
tag-archive link is never visited. -/
theorem archive_links_enqueued_at_ceiling (requestUrl baseUrl : String)
    (hrefs : List String) (nextDepth maxDepth : Nat) (chk : Bool) :
    (PageHandler.isArchivePage requestUrl = true →
      ∀ e ∈ (PageHandler.getAndEnqueueLinkUrls requestUrl hrefs baseUrl
          nextDepth maxDepth chk).enqueued, e.2 = maxDepth) ∧
    (∀ e ∈ (PageHandler.getAndEnqueueLinkUrls requestUrl hrefs baseUrl
        nextDepth maxDepth chk).enqueued,
      PageHandler.isArchivePage e.1 = false) := by
  have hmem : ∀ e ∈ (PageHandler.getAndEnqueueLinkUrls requestUrl hrefs baseUrl
      nextDepth maxDepth chk).enqueued,
      e.1 ∈ (PageHandler.processHrefs requestUrl
        ((PageHandler.hostForCompare baseUrl).getD "") chk hrefs []).2 ∧
      e.2 = (if PageHandler.isArchivePage requestUrl = true then maxDepth
             else nextDepth) := by
    intro e he
    unfold PageHandler.getAndEnqueueLinkUrls at he
    dsimp only at he
    split at he
    · split at he
      · rcases List.mem_map.mp he with ⟨u, hu, rfl⟩
        refine ⟨hu, ?_⟩
        rw [if_pos (by assumption)]
      · simp at he
    · split at he
      · rcases List.mem_map.mp he with ⟨u, hu, rfl⟩
        refine ⟨hu, ?_⟩
        rw [if_neg (by assumption)]
      · simp at he
  constructor
  · intro harch e he
    have h := (hmem e he).2
    rw [if_pos harch] at h
    exact h
  · intro e he
    exact processHrefs_enqueued_not_archive requestUrl
      ((PageHandler.hostForCompare baseUrl).getD "") chk hrefs [] e.1 (hmem e he).1

/-- C6 amended witness: extraction on a concrete tag-archive page
enqueues its link at the depth ceiling, and the enqueued target is not
itself an archive URL. -/
theorem archive_links_enqueued_at_ceiling_witness :
    PageHandler.isArchivePage "http://site.com/tag/news" = true ∧
    (("http://site.com/hidden", 3) : String × Nat).2 = 3 ∧
    PageHandler.isArchivePage "http://site.com/hidden" = false := by
  refine ⟨by decide, ?_, ?_⟩
  · exact (archive_links_enqueued_at_ceiling "http://site.com/tag/news"
      "http://site.com" ["http://site.com/hidden"] 2 3 true).1 (by decide)
      ("http://site.com/hidden", 3) (by decide)
  · exact (archive_links_enqueued_at_ceiling "http://site.com/tag/news"
      "http://site.com" ["http://site.com/hidden"] 2 3 true).2
      ("http://site.com/hidden", 3) (by decide)

/-! Helper lemmas for termination of the result-resolver loop. -/

theorem length_filter_le_of_imp (l : List String) (p q : String → Bool)
    (h : ∀ x, p x = true → q x = true) :
    (l.filter p).length ≤ (l.filter q).length := by
  induction l with
  | nil => simp
  | cons b t ih =>
    by_cases hb : p b = true
    · rw [List.filter_cons_of_pos hb, List.filter_cons_of_pos (h b hb)]
      simpa using ih
    · rw [List.filter_cons_of_neg (by simpa using hb)]
      by_cases hq : q b = true
      · rw [List.filter_cons_of_pos hq]
        exact Nat.le_succ_of_le ih
      · rw [List.filter_cons_of_neg (by simpa using hq)]
        exact ih

theorem length_filter_lt_of_flip (l : List String) (a : String)
    (p q : String → Bool) (himp : ∀ x, p x = true → q x = true)
    (hpa : p a = false) (hqa : q a = true) (hal : a ∈ l) :
    (l.filter p).length < (l.filter q).length := by
  induction l with
  | nil => cases hal
  | cons b t ih =>
    rcases List.mem_cons.mp hal with rfl | hbt
    · rw [List.filter_cons_of_neg (by simp [hpa]), List.filter_cons_of_pos hqa]
      exact Nat.lt_succ_of_le (length_filter_le_of_imp t p q himp)
    · by_cases hb : p b = true
      · rw [List.filter_cons_of_pos hb, List.filter_cons_of_pos (himp b hb)]
        simpa using ih hbt
      · rw [List.filter_cons_of_neg (by simpa using hb)]
        by_cases hq : q b = true
        · rw [List.filter_cons_of_pos hq]
          exact Nat.lt_succ_of_lt (ih hbt)
        · rw [List.filter_cons_of_neg (by simpa using hq)]
          exact ih hbt

theorem linkUrls_le_budget (records : List Tools.PageRecord)
    (r : Tools.PageRecord) (hr : r ∈ records) :
    (r.linkUrls.getD []).length ≤ Tools.linkBudget records := by
  unfold Tools.linkBudget
  induction records with
  | nil => cases hr
  | cons s t ih =>
    rcases List.mem_cons.mp hr with rfl | hrt
    · simp [List.flatMap_cons, List.length_append]
    · calc (r.linkUrls.getD []).length ≤ _ := ih hrt
        _ ≤ ((s :: t).flatMap (fun x => x.linkUrls.getD [])).length := by
            simp [List.flatMap_cons, List.length_append]

/-- C8 core: the loop of `getResults` succeeds whenever the fuel exceeds
the loop measure — each iteration either discards an already-done url or
moves a fresh candidate url into the done-set, and only finitely many
distinct normalized urls can ever be enqueued. -/
theorem getResultsLoop_isSome_of_measure_lt (baseUrl : String)
    (records : List Tools.PageRecord) :
    ∀ (fuel : Nat) (pending done : List String) (acc : List Tools.ResultPage),
      (∀ u ∈ pending, u ∈ Tools.candidateUrls baseUrl records) →
      Tools.loopMeasure baseUrl records pending done < fuel →
      (Tools.getResultsLoop records fuel pending done acc).isSome = true := by
  intro fuel
  induction fuel with
  | zero =>
    intro pending done acc _ hm
    exact absurd hm (Nat.not_lt_zero _)
  | succ fuel ih =>
    intro pending done acc hp hm
    cases pending with
    | nil => rw [Tools.getResultsLoop]; rfl
    | cons url rest =>
      have hurlmem : url ∈ Tools.candidateUrls baseUrl records :=
        hp url (List.mem_cons_self url rest)
      have hrest : ∀ u ∈ rest, u ∈ Tools.candidateUrls baseUrl records :=
        fun u hu => hp u (List.mem_cons_of_mem _ hu)
      rw [Tools.getResultsLoop]
      by_cases hdone : done.contains url = true
      · rw [if_pos hdone]
        apply ih rest done acc hrest
        unfold Tools.loopMeasure at hm ⊢
        simp only [List.length_cons] at hm
        omega
      · rw [if_neg hdone]
        dsimp only
        have hdone2 : done.contains url = false := by
          simpa using hdone
        have hdec : ((Tools.candidateUrls baseUrl records).dedup.filter
              (fun u => !((url :: done).contains u))).length <
            ((Tools.candidateUrls baseUrl records).dedup.filter
              (fun u => !(done.contains u))).length := by
          apply length_filter_lt_of_flip _ url
          · intro x hx
            simp only [List.contains_cons, Bool.not_or, Bool.and_eq_true,
              Bool.not_eq_true'] at hx
            simp only [Bool.not_eq_true']
            exact hx.2
          · simp
          · simp only [Bool.not_eq_true']
            exact hdone2
          · exact List.mem_dedup.mpr hurlmem
        cases hrec : Tools.lookupRecord records url with
        | none =>
          dsimp only
          apply ih rest (url :: done) _ hrest
          unfold Tools.loopMeasure at hm ⊢
          simp only [List.length_cons] at hm
          set K := Tools.linkBudget records with hK
          set n := ((Tools.candidateUrls baseUrl records).dedup.filter
            (fun u => !(done.contains u))).length with hn
          set m := ((Tools.candidateUrls baseUrl records).dedup.filter
            (fun u => !((url :: done).contains u))).length with hmm
          have h2 : (K + 1) * m + (K + 1) ≤ (K + 1) * n := by
            have : (K + 1) * (m + 1) ≤ (K + 1) * n :=
              Nat.mul_le_mul_left _ hdec
            calc (K + 1) * m + (K + 1) = (K + 1) * (m + 1) := by ring
              _ ≤ (K + 1) * n := this
          omega
        | some r =>
          dsimp only
          cases hlinks : r.linkUrls with
          | none =>
            dsimp only
            apply ih rest (url :: done) _ hrest
            unfold Tools.loopMeasure at hm ⊢
            simp only [List.length_cons] at hm
            set K := Tools.linkBudget records with hK
            set n := ((Tools.candidateUrls baseUrl records).dedup.filter
              (fun u => !(done.contains u))).length with hn
            set m := ((Tools.candidateUrls baseUrl records).dedup.filter
              (fun u => !((url :: done).contains u))).length with hmm
            have h2 : (K + 1) * m + (K + 1) ≤ (K + 1) * n := by
              have : (K + 1) * (m + 1) ≤ (K + 1) * n :=
                Nat.mul_le_mul_left _ hdec
              calc (K + 1) * m + (K + 1) = (K + 1) * (m + 1) := by ring
                _ ≤ (K + 1) * n := this
            omega
          | some linkUrls =>
            dsimp only
            have hrmem : r ∈ records :=
              List.mem_reverse.mp (List.mem_of_find?_eq_some hrec)
            have hpushlen :
                (if r.isBaseWebsite = true then
                    (linkUrls.map (fun lu => Tools.normalizeUrl lu)).filter
                      (fun nurl => !((url :: done).contains nurl))
                  else []).length ≤ Tools.linkBudget records := by
              by_cases hbase : r.isBaseWebsite = true
              · rw [if_pos hbase]
                calc ((linkUrls.map (fun lu => Tools.normalizeUrl lu)).filter
                      (fun nurl => !((url :: done).contains nurl))).length
                    ≤ (linkUrls.map (fun lu => Tools.normalizeUrl lu)).length :=
                      List.length_filter_le _ _
                  _ = linkUrls.length := List.length_map _ _
                  _ ≤ Tools.linkBudget records := by
                      have := linkUrls_le_budget records r hrmem
                      rw [hlinks] at this
                      simpa using this
              · rw [if_neg hbase]; simp
            have hpushmem : ∀ u ∈ (if r.isBaseWebsite = true then
                (linkUrls.map (fun lu => Tools.normalizeUrl lu)).filter
                  (fun nurl => !((url :: done).contains nurl))
              else []), u ∈ Tools.candidateUrls baseUrl records := by
              intro u hu
              by_cases hbase : r.isBaseWebsite = true
              · rw [if_pos hbase] at hu
                rcases List.mem_filter.mp hu with ⟨hu1, _⟩
                rcases List.mem_map.mp hu1 with ⟨lu, hlu, rfl⟩
                refine List.mem_cons_of_mem _ (List.mem_flatMap.mpr ⟨r, hrmem, ?_⟩)
                rw [hlinks]
                exact List.mem_map_of_mem _ hlu
              · rw [if_neg hbase] at hu; cases hu
            apply ih _ (url :: done) _
            · intro u hu
              rcases List.mem_append.mp hu with hu1 | hu1
              · exact hrest u hu1
              · exact hpushmem u hu1
            · unfold Tools.loopMeasure at hm ⊢
              simp only [List.length_cons, List.length_append] at hm ⊢
              set K := Tools.linkBudget records with hK
              set n := ((Tools.candidateUrls baseUrl records).dedup.filter
                (fun u => !(done.contains u))).length with hn
              set m := ((Tools.candidateUrls baseUrl records).dedup.filter
                (fun u => !((url :: done).contains u))).length with hmm
              have h2 : (K + 1) * m + (K + 1) ≤ (K + 1) * n := by
                have : (K + 1) * (m + 1) ≤ (K + 1) * n :=
                  Nat.mul_le_mul_left _ hdec
                calc (K + 1) * m + (K + 1) = (K + 1) * (m + 1) := by ring
                  _ ≤ (K + 1) * n := this
              omega

/-- C8: the Result Resolver terminates — for every record list and base
url the `getResults` loop finishes (returns a value) within the
explicit fuel bound `resultsFuel`, because each dequeued url is either
already done or newly added to the done-set and only finitely many
distinct normalized link urls can ever be enqueued. -/
theorem getResults_terminates (baseUrl : String)
    (records : List Tools.PageRecord) :
    (Tools.getResultsLoop records (Tools.resultsFuel baseUrl records)
      [baseUrl] [] []).isSome = true := by
  apply getResultsLoop_isSome_of_measure_lt baseUrl records
  · intro u hu
    rcases List.mem_cons.mp hu with rfl | h1
    · exact List.mem_cons_self _ _
    · cases h1
  · unfold Tools.resultsFuel
    omega

/-! Helper lemmas about `indexOfChar` (JS `indexOf`). -/

theorem indexOfChar_none (t : Char) (cs : List Char) :
    indexOfChar t cs = none ↔ t ∉ cs := by
  induction cs with
  | nil => simp [indexOfChar]
  | cons c rest ih =>
    simp only [indexOfChar, List.mem_cons]
    by_cases h : (c == t) = true
    · rw [if_pos h]
      have hc : c = t := by simpa using h
      simp [hc]
    · rw [if_neg h]
      have hc : ¬ t = c := fun he => h (by simp [he])
      rw [Option.map_eq_none']
      rw [ih]
      simp [hc]

theorem indexOfChar_some_decomp (t : Char) (cs : List Char) :
    ∀ i : Nat, indexOfChar t cs = some i →
      ∃ pre suf, cs = pre ++ t :: suf ∧ pre.length = i ∧ t ∉ pre := by
  induction cs with
  | nil => intro i h; simp [indexOfChar] at h
  | cons c rest ih =>
    intro i h
    simp only [indexOfChar] at h
    by_cases hc : (c == t) = true
    · rw [if_pos hc] at h
      have hct : c = t := by simpa using hc
      have hi : i = 0 := by simpa using h.symm
      exact ⟨[], rest, by simp [hct], by simp [hi], by simp⟩
    · rw [if_neg hc] at h
      cases hrec : indexOfChar t rest with
      | none => rw [hrec] at h; simp at h
      | some j =>
        rw [hrec] at h
        simp at h
        obtain ⟨pre, suf, heq, hlen, hmem⟩ := ih j hrec
        refine ⟨c :: pre, suf, by simp [heq], by simp [hlen, h], ?_⟩
        intro hmem2
        rcases List.mem_cons.mp hmem2 with h1 | h1
        · exact hc (by simp [h1])
        · exact hmem h1

theorem first_split_unique (t : Char) (p1 s1 p2 s2 : List Char)
    (h : p1 ++ t :: s1 = p2 ++ t :: s2) (h1 : t ∉ p1) (h2 : t ∉ p2) :
    p1 = p2 := by
  induction p1 generalizing p2 with
  | nil =>
    cases p2 with
    | nil => rfl
    | cons b q2 =>
      injection h with hb _
      exact absurd (by rw [hb]; exact List.mem_cons_self _ _) h2
  | cons a q1 ih =>
    cases p2 with
    | nil =>
      injection h with hb _
      exact absurd (by rw [← hb]; exact List.mem_cons_self _ _) h1
    | cons b q2 =>
      injection h with hab hrest
      have hq : q1 = q2 :=
        ih q2 hrest (fun hm => h1 (List.mem_cons_of_mem _ hm))
          (fun hm => h2 (List.mem_cons_of_mem _ hm))
      rw [hab, hq]

/-- C9: the resolver-side `normalizeUrl` wrapper is total (its Lean type
is `String → String`) and, whenever the underlying canonicalizer
rejects the input, returns the input itself — truncated at the first
`#` when that occurs at a positive index — never an error value. -/
theorem toolsNormalizeUrl_total_fallback (url : String)
    (h : ApifyUtils.normalizeUrl url = none) :
    ((url.data.head? = some '#' ∨ '#' ∉ url.data) →
      Tools.normalizeUrl url = url) ∧
    (∀ pre suf, url.data = pre ++ '#' :: suf → '#' ∉ pre → pre ≠ [] →
      (Tools.normalizeUrl url).data = pre) := by
  unfold Tools.normalizeUrl
  rw [h]
  constructor
  · intro hcase
    cases hidx : indexOfChar '#' url.data with
    | none => rfl
    | some i =>
      obtain ⟨pre, suf, heq, hlen, hmem⟩ := indexOfChar_some_decomp _ _ _ hidx
      rcases hcase with hhead | hnotmem
      · cases pre with
        | nil =>
          have hi : i = 0 := by simpa using hlen.symm
          dsimp only
          rw [if_neg (by omega)]
        | cons a q =>
          rw [heq] at hhead
          have : a = '#' := by simpa using hhead
          exact absurd (by rw [this]; exact List.mem_cons_self _ _) hmem
      · exact absurd
          (by rw [heq]; exact List.mem_append_right _ (List.mem_cons_self _ _))
          hnotmem
  · intro pre suf heq hpre hne
    cases hidx : indexOfChar '#' url.data with
    | none =>
      rw [indexOfChar_none] at hidx
      exact absurd
        (by rw [heq]; exact List.mem_append_right _ (List.mem_cons_self _ _))
        hidx
    | some i =>
      obtain ⟨pre2, suf2, heq2, hlen2, hmem2⟩ := indexOfChar_some_decomp _ _ _ hidx
      have hpp : pre2 = pre :=
        first_split_unique '#' pre2 suf2 pre suf (by rw [← heq2, ← heq]) hmem2 hpre
      have hi : 0 < i := by
        rw [← hlen2, hpp]
        cases pre with
        | nil => exact absurd rfl hne
        | cons a q => simp
      dsimp only
      rw [if_pos hi]
      show url.data.take i = pre
      rw [heq, ← hpp, ← hlen2]
      rw [hpp]
      exact List.take_left pre ('#' :: suf)

/-- C9 witness: a concrete invalid URL with a fragment at a positive
index passes through truncated, not as an error. -/
theorem toolsNormalizeUrl_total_fallback_witness :
    ApifyUtils.normalizeUrl "notaurl#frag" = none ∧
    (Tools.normalizeUrl "notaurl#frag").data = "notaurl".data := by
  refine ⟨by decide, ?_⟩
  exact (toolsNormalizeUrl_total_fallback "notaurl#frag" (by decide)).2
    "notaurl".data "frag".data (by decide) (by decide) (by decide)

/-! Helper lemmas about `takeWhile`/`dropWhile`/`trim` used to show that
canonical-form URLs re-parse to themselves. -/

theorem takeWhile_append_all (p : Char → Bool) (l1 l2 : List Char)
    (h : ∀ a ∈ l1, p a = true) :
    (l1 ++ l2).takeWhile p = l1 ++ l2.takeWhile p := by
  induction l1 with
  | nil => simp
  | cons a t ih =>
    have ha : p a = true := h a (List.mem_cons_self _ _)
    simp only [List.cons_append, List.takeWhile_cons, ha, if_true]
    rw [ih (fun x hx => h x (List.mem_cons_of_mem _ hx))]

theorem dropWhile_append_all (p : Char → Bool) (l1 l2 : List Char)
    (h : ∀ a ∈ l1, p a = true) :
    (l1 ++ l2).dropWhile p = l2.dropWhile p := by
  induction l1 with
  | nil => simp
  | cons a t ih =>
    have ha : p a = true := h a (List.mem_cons_self _ _)
    simp only [List.cons_append, List.dropWhile_cons, ha, if_true]
    exact ih (fun x hx => h x (List.mem_cons_of_mem _ hx))

theorem takeWhile_all_eq (p : Char → Bool) (l : List Char)
    (h : ∀ a ∈ l, p a = true) : l.takeWhile p = l := by
  have := takeWhile_append_all p l [] h
  simpa using this

theorem dropWhile_all_nil (p : Char → Bool) (l : List Char)
    (h : ∀ a ∈ l, p a = true) : l.dropWhile p = [] := by
  have := dropWhile_append_all p l [] h
  simpa using this

theorem takeWhile_cons_of_neg (p : Char → Bool) (a : Char) (l : List Char)
    (h : p a = false) : (a :: l).takeWhile p = [] := by
  simp [List.takeWhile_cons, h]

theorem dropWhile_cons_of_neg (p : Char → Bool) (a : Char) (l : List Char)
    (h : p a = false) : (a :: l).dropWhile p = a :: l := by
  simp [List.dropWhile_cons, h]

theorem dropWhile_head_false (p : Char → Bool) :
    ∀ (l : List Char) (hd : Char) (tl : List Char),
      l.dropWhile p = hd :: tl → p hd = false := by
  intro l
  induction l with
  | nil => intro hd tl hh; simp at hh
  | cons a t ih =>
    intro hd tl hh
    by_cases ha : p a = true
    · rw [List.dropWhile_cons, if_pos ha] at hh
      exact ih hd tl hh
    · rw [List.dropWhile_cons, if_neg ha] at hh
      injection hh with h1 _
      rw [← h1]
      simpa using ha

theorem trimChars_eq_self (cs : List Char)
    (hhead : ∀ c, cs.head? = some c → jsWhitespace c = false)
    (hlast : ∀ c, cs.getLast? = some c → jsWhitespace c = false) :
    trimChars cs = cs := by
  unfold trimChars
  have h1 : cs.dropWhile jsWhitespace = cs := by
    cases cs with
    | nil => rfl
    | cons a t => exact dropWhile_cons_of_neg _ _ _ (hhead a rfl)
  rw [h1]
  have h2 : cs.reverse.dropWhile jsWhitespace = cs.reverse := by
    cases hr : cs.reverse with
    | nil => rfl
    | cons a t =>
      have : cs.getLast? = some a := by
        rw [← List.head?_reverse, hr]; rfl
      rw [← hr]
      rw [hr]
      exact dropWhile_cons_of_neg _ _ _ (hlast a this)
  rw [h2, List.reverse_reverse]

theorem stripTabNewline_eq_self (cs : List Char)
    (h : ∀ c ∈ cs, (c == '\t') = false ∧ (c == '\n') = false ∧
      (c == '\r') = false) :
    stripTabNewline cs = cs := by
  apply List.filter_eq_self.mpr
  intro a ha
  rcases h a ha with ⟨h1, h2, h3⟩
  simp [h1, h2, h3]

theorem lowerChar_eq_self (c : Char) (h : ¬('A' ≤ c ∧ c ≤ 'Z')) :
    lowerChar c = c := if_neg h

theorem lowerList_eq_self (cs : List Char)
    (h : ∀ c ∈ cs, ¬('A' ≤ c ∧ c ≤ 'Z')) : lowerList cs = cs := by
  induction cs with
  | nil => rfl
  | cons a t ih =>
    show lowerChar a :: lowerList t = a :: t
    rw [lowerChar_eq_self a (h a (List.mem_cons_self _ _)),
      ih (fun x hx => h x (List.mem_cons_of_mem _ hx))]

theorem stripWww_eq_self (cs : List Char)
    (h : "www.".data.isPrefixOf cs = false) :
    ApifyUtils.stripWww cs = cs := by
  unfold ApifyUtils.stripWww
  rw [if_neg]
  simp [h]

theorem stripTrailingSlashes_eq_self (cs : List Char)
    (h : cs.getLast? ≠ some '/') :
    ApifyUtils.stripTrailingSlashes cs = cs := by
  unfold ApifyUtils.stripTrailingSlashes
  cases hr : cs.reverse with
  | nil =>
    rw [List.dropWhile_nil, ← hr, List.reverse_reverse]
  | cons a t =>
    have ha : cs.getLast? = some a := by
      rw [← List.head?_reverse, hr]; rfl
    have hne : (a == '/') = false := by
      by_cases hb : (a == '/') = true
      · have hsl : a = '/' := by simpa using hb
        rw [hsl] at ha
        exact absurd ha h
      · simpa using hb
    rw [dropWhile_cons_of_neg (fun x => x == '/') a t hne, ← hr,
      List.reverse_reverse]

theorem collapseSlashes_eq_self :
    ∀ cs : List Char, ApifyUtils.hasDoubleSlash cs = false →
      ApifyUtils.collapseSlashes cs = cs := by
  intro cs
  induction cs with
  | nil => intro _; rfl
  | cons c rest ih =>
    intro h
    cases rest with
    | nil => rfl
    | cons d rest2 =>
      have hsplit : (c == '/' && d == '/') = false ∧
          ApifyUtils.hasDoubleSlash (d :: rest2) = false := by
        have : ((c == '/' && d == '/') ||
            ApifyUtils.hasDoubleSlash (d :: rest2)) = false := h
        exact Bool.or_eq_false_iff.mp this
      show ApifyUtils.collapseSlashes (c :: d :: rest2) = c :: d :: rest2
      rw [ApifyUtils.collapseSlashes]
      simp only [if_neg (by simp [hsplit.1] : ¬((c == '/' && d == '/') = true))]
      rw [ih hsplit.2]

theorem stringDataInj (a b : String) (h : a.data = b.data) : a = b := by
  cases a; cases b
  simp only at h
  rw [h]

theorem hostCharOk_split (c : Char) (h : ApifyUtils.hostCharOk c = true) :
    (c == '/') = false ∧ (c == '\\') = false ∧ (c == '?') = false ∧
    (c == '#') = false ∧ (c == '@') = false ∧ (c == ':') = false ∧
    (c == '\t') = false ∧ (c == '\n') = false ∧ (c == '\r') = false ∧
    ¬('A' ≤ c ∧ c ≤ 'Z') := by
  unfold ApifyUtils.hostCharOk at h
  rw [Bool.not_eq_true'] at h
  simp only [Bool.or_eq_false_iff] at h
  obtain ⟨⟨⟨⟨⟨⟨⟨⟨⟨h1, h2⟩, h3⟩, h4⟩, h5⟩, h6⟩, h7⟩, h8⟩, h9⟩, h10⟩ := h
  refine ⟨h1, h2, h3, h4, h5, h6, h7, h8, h9, ?_⟩
  intro hc
  rw [Bool.and_eq_false_iff] at h10
  rcases h10 with h10 | h10 <;> simp [hc.1, hc.2] at h10

theorem pathCharOk_split (c : Char) (h : ApifyUtils.pathCharOk c = true) :
    (c == '?') = false ∧ (c == '#') = false ∧ (c == '\t') = false ∧
    (c == '\n') = false ∧ (c == '\r') = false := by
  unfold ApifyUtils.pathCharOk at h
  rw [Bool.not_eq_true'] at h
  simp only [Bool.or_eq_false_iff] at h
  obtain ⟨⟨⟨⟨h1, h2⟩, h3⟩, h4⟩, h5⟩ := h
  exact ⟨h1, h2, h3, h4, h5⟩

theorem removeFirstChar_append_singleton (t : Char) (l : List Char)
    (h : t ∉ l) : removeFirstChar t (l ++ [t]) = l := by
  induction l with
  | nil => simp [removeFirstChar]
  | cons a q ih =>
    rw [List.cons_append, removeFirstChar]
    rw [if_neg (fun hb => h (by
      rw [show a = t from by simpa using hb]
      exact List.mem_cons_self _ _))]
    rw [ih (fun hm => h (List.mem_cons_of_mem _ hm))]

/-- Re-parsing a canonical-form URL recovers its components verbatim. -/
theorem jsParseCore_canonical (scheme host path : List Char)
    (hs : scheme = "http".data ∨ scheme = "https".data)
    (hh1 : host ≠ [])
    (hh2 : ∀ c ∈ host, ApifyUtils.hostCharOk c = true)
    (hp1 : ∀ c ∈ path, ApifyUtils.pathCharOk c = true)
    (hp4 : path = [] ∨ ∃ t, path = '/' :: t) :
    jsParseCore (scheme ++ ':' :: '/' :: '/' :: (host ++ path)) =
      some { protocol := String.mk (scheme ++ [':']),
             hostname := String.mk host,
             pathname := String.mk (if path.isEmpty then ['/'] else path),
             search := "", hash := "" } := by
  have hAuthPred : ∀ c ∈ host, (!authorityDelim c) = true := by
    intro c hc
    rcases hostCharOk_split c (hh2 c hc) with ⟨a1, a2, a3, a4, _⟩
    simp [authorityDelim, a1, a2, a3, a4]
  have hPathPred : ∀ c ∈ path, (!pathDelim c) = true := by
    intro c hc
    rcases pathCharOk_split c (hp1 c hc) with ⟨a1, a2, _⟩
    simp [pathDelim, a1, a2]
  have hps : parseScheme (scheme ++ ':' :: '/' :: '/' :: (host ++ path)) =
      some (scheme, '/' :: '/' :: (host ++ path)) := by
    rcases hs with rfl | rfl <;> rfl
  unfold jsParseCore
  rw [hps]
  dsimp only
  rw [if_pos hs]
  have hdw : ('/' :: '/' :: (host ++ path)).dropWhile
      (fun c => c == '/' || c == '\\') = host ++ path := by
    rw [List.dropWhile_cons, if_pos (by decide), List.dropWhile_cons,
      if_pos (by decide)]
    cases host with
    | nil => exact absurd rfl hh1
    | cons h0 hrest =>
      rcases hostCharOk_split h0 (hh2 h0 (List.mem_cons_self _ _)) with
        ⟨a1, a2, _⟩
      rw [List.cons_append]
      exact dropWhile_cons_of_neg _ _ _ (by simp [a1, a2])
  rw [hdw]
  have hauth : (host ++ path).takeWhile (fun c => !authorityDelim c) = host := by
    rw [takeWhile_append_all _ _ _ hAuthPred]
    rcases hp4 with rfl | ⟨t, rfl⟩
    · simp
    · rw [takeWhile_cons_of_neg _ _ _ (by decide)]
      simp
  have hrest2 : (host ++ path).dropWhile (fun c => !authorityDelim c) = path := by
    rw [dropWhile_append_all _ _ _ hAuthPred]
    rcases hp4 with rfl | ⟨t, rfl⟩
    · rfl
    · exact dropWhile_cons_of_neg _ _ _ (by decide)
  rw [hauth, hrest2]
  have huser : (host.reverse.takeWhile (· != '@')).reverse = host := by
    rw [takeWhile_all_eq _ _ (fun c hc => ?_), List.reverse_reverse]
    rcases hostCharOk_split c (hh2 c (List.mem_reverse.mp hc)) with
      ⟨_, _, _, _, a5, _⟩
    simpa using a5
  rw [huser]
  have hport : host.takeWhile (· != ':') = host := by
    apply takeWhile_all_eq
    intro c hc
    rcases hostCharOk_split c (hh2 c hc) with ⟨_, _, _, _, _, a6, _⟩
    simpa using a6
  rw [hport]
  rw [if_neg (by
    cases host with
    | nil => exact absurd rfl hh1
    | cons h0 hrest => simp)]
  rw [takeWhile_all_eq _ _ hPathPred, dropWhile_all_nil _ _ hPathPred]
  dsimp only
  rw [lowerList_eq_self host (fun c hc =>
    (hostCharOk_split c (hh2 c hc)).2.2.2.2.2.2.2.2.2)]
  rfl

theorem notUpper_of_all (l : List Char)
    (h : l.all (fun c => !(decide ('A' ≤ c) && decide (c ≤ 'Z'))) = true) :
    ∀ c ∈ l, ¬('A' ≤ c ∧ c ≤ 'Z') := by
  intro c hc hand
  have hcc := List.all_eq_true.mp h c hc
  simp [hand.1, hand.2] at hcc

theorem noTabNL_of_all (l : List Char)
    (h : l.all (fun c => !(c == '\t') && !(c == '\n') && !(c == '\r')) = true) :
    ∀ c ∈ l, (c == '\t') = false ∧ (c == '\n') = false ∧ (c == '\r') = false := by
  intro c hc
  have hcc := List.all_eq_true.mp h c hc
  simp only [Bool.and_eq_true, Bool.not_eq_true'] at hcc
  exact ⟨hcc.1.1, hcc.1.2, hcc.2⟩

/-- `normalizeUrl` is the identity on canonical-form URLs. -/
theorem normalizeUrl_canonical (scheme host path : List Char)
    (hs : scheme = "http".data ∨ scheme = "https".data)
    (hh1 : host ≠ [])
    (hh2 : ∀ c ∈ host, ApifyUtils.hostCharOk c = true)
    (hh3 : "www.".data.isPrefixOf host = false)
    (hp1 : ∀ c ∈ path, ApifyUtils.pathCharOk c = true)
    (hp2 : path.getLast? ≠ some '/')
    (hp3 : ApifyUtils.hasDoubleSlash path = false)
    (hp4 : path = [] ∨ ∃ t, path = '/' :: t)
    (hws : ∀ c, (scheme ++ ':' :: '/' :: '/' :: (host ++ path)).getLast? = some c → jsWhitespace c = false) :
    ApifyUtils.normalizeUrl (String.mk (scheme ++ ':' :: '/' :: '/' :: (host ++ path))) =
      some (String.mk (scheme ++ ':' :: '/' :: '/' :: (host ++ path))) := by
  have hne : ¬((String.mk (scheme ++ ':' :: '/' :: '/' :: (host ++ path))).isEmpty = true) := by
    rw [String.isEmpty_iff]
    intro hc
    have hdata : (scheme ++ ':' :: '/' :: '/' :: (host ++ path)) = [] := congrArg String.data hc
    rcases hs with rfl | rfl <;> simp at hdata
  have htrim : trimChars (scheme ++ ':' :: '/' :: '/' :: (host ++ path)) = (scheme ++ ':' :: '/' :: '/' :: (host ++ path)) := by
    apply trimChars_eq_self
    · intro c hc
      rcases hs with rfl | rfl <;>
        (simp only [List.cons_append, List.head?_cons, Option.some.injEq] at hc;
         rw [← hc]; rfl)
    · exact hws
  have hstn : stripTabNewline (scheme ++ ':' :: '/' :: '/' :: (host ++ path)) = (scheme ++ ':' :: '/' :: '/' :: (host ++ path)) := by
    apply stripTabNewline_eq_self
    intro c hc
    rcases List.mem_append.mp hc with h1 | h1
    · exact noTabNL_of_all scheme (by rcases hs with rfl | rfl <;> decide) c h1
    · rcases List.mem_cons.mp h1 with rfl | h1
      · exact ⟨rfl, rfl, rfl⟩
      rcases List.mem_cons.mp h1 with rfl | h1
      · exact ⟨rfl, rfl, rfl⟩
      rcases List.mem_cons.mp h1 with rfl | h1
      · exact ⟨rfl, rfl, rfl⟩
      rcases List.mem_append.mp h1 with h2 | h2
      · rcases hostCharOk_split c (hh2 c h2) with
          ⟨_, _, _, _, _, _, t1, t2, t3, _⟩
        exact ⟨t1, t2, t3⟩
      · rcases pathCharOk_split c (hp1 c h2) with ⟨_, _, t1, t2, t3⟩
        exact ⟨t1, t2, t3⟩
  have hjp : jsParseURL (String.mk (scheme ++ ':' :: '/' :: '/' :: (host ++ path))) =
      some { protocol := String.mk (scheme ++ [':']),
             hostname := String.mk host,
             pathname := String.mk (if path.isEmpty then ['/'] else path),
             search := "", hash := "" } := by
    unfold jsParseURL
    show jsParseCore (stripTabNewline (trimChars (scheme ++ ':' :: '/' :: '/' :: (host ++ path)))) = _
    rw [htrim, hstn]
    exact jsParseCore_canonical scheme host path hs hh1 hh2 hp1 hp4
  unfold ApifyUtils.normalizeUrl
  rw [if_neg hne, hjp]
  dsimp only
  have hproto : lowerStr (String.mk (removeFirstChar ':' (scheme ++ [':']))) =
      String.mk scheme := by
    rw [removeFirstChar_append_singleton ':' scheme
      (by rcases hs with rfl | rfl <;> decide)]
    show String.mk (lowerList scheme) = String.mk scheme
    rw [lowerList_eq_self scheme
      (notUpper_of_all scheme (by rcases hs with rfl | rfl <;> decide))]
  rw [hproto]
  rw [if_neg (by rcases hs with rfl | rfl <;> decide)]
  have hhost : String.mk (ApifyUtils.stripWww (lowerList host)) =
      String.mk host := by
    rw [lowerList_eq_self host (fun c hc =>
      (hostCharOk_split c (hh2 c hc)).2.2.2.2.2.2.2.2.2)]
    rw [stripWww_eq_self host hh3]
  have hpath : String.mk (ApifyUtils.collapseSlashes
      (ApifyUtils.stripTrailingSlashes
        (if path.isEmpty = true then ['/'] else path))) = String.mk path := by
    rcases hp4 with rfl | ⟨t, rfl⟩
    · rfl
    · rw [if_neg (by simp)]
      rw [stripTrailingSlashes_eq_self _ hp2, collapseSlashes_eq_self _ hp3]
  rw [hhost, hpath]
  show some (String.mk scheme ++ "://" ++ String.mk host ++ String.mk path ++
    "" ++ "") = _
  apply congrArg some
  apply stringDataInj
  show scheme ++ "://".data ++ host ++ path ++ [] ++ [] = scheme ++ ':' :: '/' :: '/' :: (host ++ path)
  simp only [List.append_nil, List.append_assoc]
  rfl

/-- Every `canonTame` string is a fixed point of the canonicalizer. -/
theorem canonTame_fixed_point (v : String)
    (h : ApifyUtils.canonTame v = true) :
    ApifyUtils.normalizeUrl v = some v := by
  unfold ApifyUtils.canonTame at h
  dsimp only at h
  by_cases h7 : ("http://".data.isPrefixOf v.data) = true
  · rw [if_pos h7] at h
    dsimp only at h
    simp only [Bool.and_eq_true] at h
    obtain ⟨⟨⟨⟨⟨⟨hA, hB⟩, hC⟩, hD⟩, hE⟩, hF⟩, hG⟩ := h
    have hvdec : v.data = "http://".data ++ v.data.drop 7 := by
      rcases List.isPrefixOf_iff_prefix.mp h7 with ⟨t, ht⟩
      have hdrop : v.data.drop 7 = t := by
        rw [← ht, show (7 : Nat) = ("http://".data).length from rfl,
          List.drop_left]
      rw [hdrop, ht]
    have hsplit : v.data.drop 7 = ((v.data.drop 7).takeWhile (fun x => x != '/')) ++ ((v.data.drop 7).dropWhile (fun x => x != '/')) :=
      (List.takeWhile_append_dropWhile _ _).symm
    have hh1 : ((v.data.drop 7).takeWhile (fun x => x != '/')) ≠ [] := by
      intro heq
      rw [heq] at hA
      simp at hA
    have hh2 : ∀ c ∈ ((v.data.drop 7).takeWhile (fun x => x != '/')), ApifyUtils.hostCharOk c = true :=
      List.all_eq_true.mp hB
    have hh3 : "www.".data.isPrefixOf ((v.data.drop 7).takeWhile (fun x => x != '/')) = false := by
      simpa using hC
    have hp1 : ∀ c ∈ ((v.data.drop 7).dropWhile (fun x => x != '/')), ApifyUtils.pathCharOk c = true :=
      List.all_eq_true.mp hD
    have hp2 : (((v.data.drop 7).dropWhile (fun x => x != '/'))).getLast? ≠ some '/' := by
      simpa using hE
    have hp3 : ApifyUtils.hasDoubleSlash ((v.data.drop 7).dropWhile (fun x => x != '/')) = false := by
      simpa using hF
    have hp4 : ((v.data.drop 7).dropWhile (fun x => x != '/')) = [] ∨ ∃ t2, ((v.data.drop 7).dropWhile (fun x => x != '/')) = '/' :: t2 := by
      cases hq : ((v.data.drop 7).dropWhile (fun x => x != '/')) with
      | nil => exact Or.inl rfl
      | cons hd tl =>
        have hhd := dropWhile_head_false (fun x => x != '/')
          (v.data.drop 7) hd tl hq
        have hslash : hd = '/' := by simpa using hhd
        exact Or.inr ⟨tl, by rw [hslash]⟩
    have hveq : "http".data ++ ':' :: '/' :: '/' :: (((v.data.drop 7).takeWhile (fun x => x != '/')) ++ ((v.data.drop 7).dropWhile (fun x => x != '/'))) = v.data := by
      rw [← hsplit]
      conv_rhs => rw [hvdec]
      rfl
    have hws : ∀ c,
        ("http".data ++ ':' :: '/' :: '/' :: (((v.data.drop 7).takeWhile (fun x => x != '/')) ++ ((v.data.drop 7).dropWhile (fun x => x != '/')))).getLast? = some c →
        jsWhitespace c = false := by
      intro c hc
      rw [hveq] at hc
      rw [hc] at hG
      simpa using hG
    have hfin := normalizeUrl_canonical "http".data ((v.data.drop 7).takeWhile (fun x => x != '/')) ((v.data.drop 7).dropWhile (fun x => x != '/')) (Or.inl rfl)
      hh1 hh2 hh3 hp1 hp2 hp3 hp4 hws
    rw [hveq] at hfin
    exact hfin
  · rw [if_neg h7] at h
    by_cases h8 : ("https://".data.isPrefixOf v.data) = true
    · rw [if_pos h8] at h
      dsimp only at h
      simp only [Bool.and_eq_true] at h
      obtain ⟨⟨⟨⟨⟨⟨hA, hB⟩, hC⟩, hD⟩, hE⟩, hF⟩, hG⟩ := h
      have hvdec : v.data = "https://".data ++ v.data.drop 8 := by
        rcases List.isPrefixOf_iff_prefix.mp h8 with ⟨t, ht⟩
        have hdrop : v.data.drop 8 = t := by
          rw [← ht, show (8 : Nat) = ("https://".data).length from rfl,
            List.drop_left]
        rw [hdrop, ht]
      have hsplit : v.data.drop 8 = ((v.data.drop 8).takeWhile (fun x => x != '/')) ++ ((v.data.drop 8).dropWhile (fun x => x != '/')) :=
        (List.takeWhile_append_dropWhile _ _).symm
      have hh1 : ((v.data.drop 8).takeWhile (fun x => x != '/')) ≠ [] := by
        intro heq
        rw [heq] at hA
        simp at hA
      have hh2 : ∀ c ∈ ((v.data.drop 8).takeWhile (fun x => x != '/')), ApifyUtils.hostCharOk c = true :=
        List.all_eq_true.mp hB
      have hh3 : "www.".data.isPrefixOf ((v.data.drop 8).takeWhile (fun x => x != '/')) = false := by
        simpa using hC
      have hp1 : ∀ c ∈ ((v.data.drop 8).dropWhile (fun x => x != '/')), ApifyUtils.pathCharOk c = true :=
        List.all_eq_true.mp hD
      have hp2 : (((v.data.drop 8).dropWhile (fun x => x != '/'))).getLast? ≠ some '/' := by
        simpa using hE
      have hp3 : ApifyUtils.hasDoubleSlash ((v.data.drop 8).dropWhile (fun x => x != '/')) = false := by
        simpa using hF
      have hp4 : ((v.data.drop 8).dropWhile (fun x => x != '/')) = [] ∨ ∃ t2, ((v.data.drop 8).dropWhile (fun x => x != '/')) = '/' :: t2 := by
        cases hq : ((v.data.drop 8).dropWhile (fun x => x != '/')) with
        | nil => exact Or.inl rfl
        | cons hd tl =>
          have hhd := dropWhile_head_false (fun x => x != '/')
            (v.data.drop 8) hd tl hq
          have hslash : hd = '/' := by simpa using hhd
          exact Or.inr ⟨tl, by rw [hslash]⟩
      have hveq : "https".data ++ ':' :: '/' :: '/' :: (((v.data.drop 8).takeWhile (fun x => x != '/')) ++ ((v.data.drop 8).dropWhile (fun x => x != '/'))) = v.data := by
        rw [← hsplit]
        conv_rhs => rw [hvdec]
        rfl
      have hws : ∀ c,
          ("https".data ++ ':' :: '/' :: '/' :: (((v.data.drop 8).takeWhile (fun x => x != '/')) ++ ((v.data.drop 8).dropWhile (fun x => x != '/')))).getLast? = some c →
          jsWhitespace c = false := by
        intro c hc
        rw [hveq] at hc
        rw [hc] at hG
        simpa using hG
      have hfin := normalizeUrl_canonical "https".data ((v.data.drop 8).takeWhile (fun x => x != '/')) ((v.data.drop 8).dropWhile (fun x => x != '/')) (Or.inr rfl)
        hh1 hh2 hh3 hp1 hp2 hp3 hp4 hws
      rw [hveq] at hfin
      exact hfin
    · rw [if_neg h8] at h
      dsimp only at h
      exact absurd h (by simp)

/-- C3 amended: canonicalization is not idempotent in general (see the
counterexample with a doubled `www.` prefix), but every accepted URL
whose canonical form is tame — `http(s)://` + non-empty lowercase
non-`www.` host + slash-normalized path, no query, no stray
whitespace — is a fixed point of the canonicalizer, i.e.
`canon(canon u) = canon u` whenever `canon u` is tame; and the claim's
case/format-insensitivity example holds. -/
theorem normalizeUrl_idempotent_on_tame :
    (∀ u v, ApifyUtils.normalizeUrl u = some v →
      ApifyUtils.canonTame v = true → ApifyUtils.normalizeUrl v = some v) ∧
    ApifyUtils.normalizeUrl "HTTP://WWW.Example.com/a/" =
      ApifyUtils.normalizeUrl "http://example.com/a" :=
  ⟨fun _ v _ h2 => canonTame_fixed_point v h2, by decide⟩

/-- C3 amended witness: the canonical form of the spec's example URL is
tame and a second canonicalization pass leaves it unchanged. -/
theorem normalizeUrl_idempotent_on_tame_witness :
    ApifyUtils.normalizeUrl "HTTP://WWW.Example.com/a/" =
      some "http://example.com/a" ∧
    ApifyUtils.canonTame "http://example.com/a" = true ∧
    ApifyUtils.normalizeUrl "http://example.com/a" =
      some "http://example.com/a" := by
  refine ⟨by decide, by decide, ?_⟩
  exact normalizeUrl_idempotent_on_tame.1 "HTTP://WWW.Example.com/a/"
    "http://example.com/a" (by decide) (by decide)

/-- C10: `hasBaseDomain` is a string-prefix test after stripping the
scheme/`www.` prefix, so a URL on the different registrable domain
`example.com.evil.net` is treated as lying within the base domain
`example.com`. -/
theorem hasBaseDomain_prefix_confusion :
    Tools.hasBaseDomain "https://example.com" "https://example.com.evil.net/x" = true := by
  decide

end BLF
